import Mathlib

/-!
# Run-task service (`secure/app/main.go`): a shallow embedding

The Go program is one file.  Its functions are embedded as Lean functions of the
same names.  Everything the program takes from the outside world (the HTTP
client, the file system, the external tools, the regular-expression engine, the
keyed hash of the standard library) is an explicit argument, and every effect the
program has on the outside world is recorded in a trace of `Event`s.  The calls
of the package `log` write to the log only and are left out; an error that the
code only logs is a result that the caller drops.

Go strings that only carry text are Lean `String`s; byte slices, and the one
string that is compared byte by byte (the request signature), are lists of byte
values.
-/

namespace RunTask

/-! ## Definitions -/

/-! ### Signature verification (`verifyHMAC`, lines 84-94) -/

/-- A byte value; only the residue modulo 256 is meaningful. -/
abbrev Byte := Nat

/-- The table `hextable = "0123456789abcdef"` of `encoding/hex`, as ASCII codes,
indexed by a nibble. -/
def hextable (nibble : Nat) : Byte :=
  if nibble < 10 then 48 + nibble else 87 + nibble

/-- `hex.EncodeToString`: every byte `v` becomes `hextable[v>>4]`, `hextable[v&0x0f]`. -/
def hexEncodeToString : List Byte → List Byte
  | [] => []
  | v :: rest => hextable (v % 256 / 16) :: hextable (v % 16) :: hexEncodeToString rest

/-- `hmac.Equal`: constant-time comparison, true exactly on equal byte slices. -/
def hmacEqual (a b : List Byte) : Bool :=
  decide (a = b)

/-- `verifyHMAC` (lines 84-94).  `mac key body` is the digest
`hmac.New(sha512.New, key)` produces after `Write(body)`; `hmacKey` is the
package variable set by `init`. -/
def verifyHMAC (mac : List Byte → List Byte → List Byte) (hmacKey : List Byte)
    (body : List Byte) (signature : List Byte) : Bool :=
  if hmacKey.length = 0 then
    true
  else
    let expectedSignature := hexEncodeToString (mac hmacKey body)
    hmacEqual signature expectedSignature

/-! ### Paths (`path/filepath` on a Unix system) -/

/-- The bytes of a path cut at every separator `/`: `a//b` gives `a`, the empty
element and `b`. -/
def splitSlash : List Char → List (List Char)
  | [] => [[]]
  | c :: cs =>
    if c = '/' then [] :: splitSlash cs
    else
      match splitSlash cs with
      | [] => [[c]]
      | h :: t => (c :: h) :: t

/-- One round of the loop of `filepath.Clean`, on the path element `elem`.  `out`
is the output buffer as the list of the elements written so far, last element
first.  An empty element and `.` are dropped; `..` removes the last element when
there is one that is not itself `..` (`out.w > dotdot`), is appended when the path
is not rooted, and is dropped at the root; any other element is appended. -/
def cleanStep (rooted : Bool) (out : List (List Char)) (elem : List Char) :
    List (List Char) :=
  if elem = [] then out
  else if elem = ['.'] then out
  else if elem = ['.', '.'] then
    match out with
    | top :: below =>
      if top = ['.', '.'] then (if rooted then out else elem :: out) else below
    | [] => if rooted then out else [elem]
  else elem :: out

/-- A path in the form `filepath.Clean` leaves it in: whether it starts at the
root, and its elements in order. -/
structure CleanPath where
  rooted : Bool
  elems : List (List Char)
  deriving DecidableEq, Repr

/-- The elements `filepath.Clean` keeps of a path. -/
def cleanPath (path : List Char) : CleanPath :=
  let rooted := decide (path.head? = some '/')
  { rooted := rooted, elems := ((splitSlash path).foldl (cleanStep rooted) []).reverse }

/-- The elements of a path written with `/` between them. -/
def joinSlash : List (List Char) → List Char
  | [] => []
  | [e] => e
  | e :: rest => e ++ '/' :: joinSlash rest

/-- The text of a cleaned path: `/` alone for the root, `.` for the empty
relative path (`out.w == 0`). -/
def CleanPath.render (p : CleanPath) : List Char :=
  if p.rooted then '/' :: joinSlash p.elems
  else if p.elems = [] then ['.'] else joinSlash p.elems

/-- `filepath.Clean`. -/
def filepathClean (path : String) : String :=
  String.mk (cleanPath path.data).render

/-- `strings.Join(elem, "/")`. -/
def stringsJoinSlash : List String → List Char
  | [] => []
  | [e] => e.data
  | e :: rest => e.data ++ '/' :: stringsJoinSlash rest

/-- `filepath.Join`: the elements from the first non-empty one on are joined with
`/` and the result is cleaned; with no non-empty element the result is empty. -/
def filepathJoin : List String → String
  | [] => ""
  | e :: rest =>
    if e = "" then filepathJoin rest
    else String.mk (cleanPath (stringsJoinSlash (e :: rest))).render

/-- The prefix of a path up to and including its last separator (empty when there
is none). -/
def uptoLastSlash (path : List Char) : List Char :=
  (path.reverse.dropWhile (fun c => decide (c ≠ '/'))).reverse

/-- `filepath.Dir`: all but the last element of the path, cleaned. -/
def filepathDir (path : String) : String :=
  String.mk (cleanPath (uptoLastSlash path.data)).render

/-- `target` lies under `root`: both cleaned paths start at the same place, the
elements of `root` are the first elements of `target`, and no further element of
`target` is `..`. -/
def pathUnder (root target : String) : Bool :=
  let r := cleanPath root.data
  let t := cleanPath target.data
  decide (r.rooted = t.rooted) && r.elems.isPrefixOf t.elems &&
    !(t.elems.drop r.elems.length).contains ['.', '.']

/-! ### Data model (lines 24-72) -/

/-- The webhook payload (lines 24-48). -/
structure PrePlanPayload where
  PayloadVersion : Int
  AccessToken : String
  Stage : String
  IsSpeculative : Bool
  TaskResultID : String
  TaskResultEnforcementLevel : String
  TaskResultCallbackURL : String
  RunAppURL : String
  RunID : String
  RunMessage : String
  RunCreatedAt : String
  RunCreatedBy : String
  WorkspaceID : String
  WorkspaceName : String
  WorkspaceAppURL : String
  OrganizationName : String
  VCSRepoURL : String
  VCSBranch : String
  VCSPullRequestURL : String
  VCSCommitURL : String
  ConfigurationVersionID : String
  ConfigurationVersionDownloadURL : String
  WorkspaceWorkingDirectory : String
  deriving DecidableEq, Repr, Inhabited

/-- The attributes of a verdict (lines 59-63). -/
structure ResultAttributes where
  Status : String
  Message : String
  URL : String
  deriving DecidableEq, Repr

/-- The typed envelope of a verdict (lines 54-57). -/
structure ResultData where
  type : String
  Attributes : ResultAttributes
  deriving DecidableEq, Repr

/-- The document sent to the callback (lines 50-52). -/
structure Result where
  Data : ResultData
  deriving DecidableEq, Repr

/-- The constant `BaseDir` (line 69). -/
def BaseDir : String := "/app"

/-- The capacity of the channel `jobQueue` (line 65). -/
def jobQueueCap : Nat := 100

/-- The map `matchCounts` of the scanner, `map[string]int`: the entries, one per
key.  Go's `int` has 64 bits; a count is at most one more than the number of
bytes read, so it does not wrap, and the counts are integers here. -/
abbrev MatchCounts := List (String × Int)

/-- The value `m[key]` (zero for a key that is not in the map). -/
def MatchCounts.get : MatchCounts → String → Int
  | [], _ => 0
  | (k, v) :: rest, key => if k = key then v else MatchCounts.get rest key

/-- The assignment `m[key] += n`. -/
def MatchCounts.add : MatchCounts → String → Int → MatchCounts
  | [], key, n => [(key, n)]
  | (k, v) :: rest, key, n =>
    if k = key then (k, v + n) :: rest else (k, v) :: MatchCounts.add rest key n

/-! ### The outside world -/

/-- What `tarReader.Next` gives: the header of the next entry (with the bytes of
the entry), or an error.  The end of the list is `io.EOF`. -/
inductive TarNext where
  | header (Typeflag : Nat) (Name : String) (data : List Byte)
  | failure (err : String)
  deriving DecidableEq, Repr

/-- The constant `tar.TypeReg`, the byte `'0'`. -/
def TypeReg : Nat := 48

/-- The constant `tar.TypeDir`, the byte `'5'`. -/
def TypeDir : Nat := 53

mutual
/-- What `filepath.Walk` finds at a path. -/
inductive FsNode where
  /-- Something that is not a directory and whose contents can be read. -/
  | file (content : List Byte)
  /-- Something that is not a directory and on which `os.ReadFile` fails. -/
  | unreadable (err : String)
  /-- A directory with its entries. -/
  | dir (entries : FsEntries)
  /-- A directory whose names cannot be read. -/
  | lockedDir (err : String)
  /-- A path on which `os.Lstat` fails. -/
  | lstatError (err : String)
/-- The entries of a directory, in the sorted order in which `Walk` visits them. -/
inductive FsEntries where
  | nil
  | cons (name : String) (node : FsNode) (rest : FsEntries)
end

/-- An effect of the program on the outside world. -/
inductive Event where
  /-- The call `http.DefaultClient.Do` on a request with this method, URL, bearer
  token and body. -/
  | httpDo (method url token body : String)
  | mkdirAll (path : String)
  | create (path : String)
  /-- The call `io.Copy` into the file created at `path`. -/
  | copy (path : String)
  /-- The calls `os.Open` and `gzip.NewReader` on the archive. -/
  | openArchive (path : String)
  | stat (path : String)
  | chdir (path : String)
  /-- A command run in the directory `dir`. -/
  | exec (dir : String) (argv : List String)
  /-- The calls `os.Open` and the line scan of `readRegexPatterns`. -/
  | readLines (path : String)
  | walk (root : String)
  | sleep
  deriving DecidableEq, Repr

/-- The outside world.  Every answer may depend on the events so far. -/
structure World where
  /-- The error of `http.NewRequest` on a URL, if it has one. -/
  newRequest : String → Option String
  /-- The answer to a request: an error of the transport or of reading the
  response, or the status code and the body. -/
  response : List Event → Event → Except String (Nat × List Byte)
  /-- The error of an operation that returns nothing else, if it has one. -/
  fault : List Event → Event → Option String
  /-- Whether `os.Stat` on the path gives an error with `os.IsNotExist`. -/
  notExist : List Event → String → Bool
  /-- The entries of the archive at the path, or the error of opening it. -/
  archive : List Event → String → Except String (List TarNext)
  /-- The lines of the file at the path, or the error of reading it. -/
  lines : List Event → String → Except String (List String)
  /-- What `filepath.Walk` finds at the path. -/
  tree : List Event → String → FsNode
  /-- The package `regexp`: `regexp.Compile` fails (`none`) or gives a compiled
  expression, taken as its function `FindAll(content, -1)`; an empty list is the
  `nil` that `FindAll` returns when there is no match. -/
  compile : String → Option (List Byte → List (List Byte))
  /-- The order in which `range` goes through the entries of a map. -/
  rangeOrder : List Event → MatchCounts → MatchCounts
  /-- The document `json.Marshal` writes for a verdict. -/
  encode : Result → String
  /-- The variable `BaseURL`, set by `main`. -/
  BaseURL : String

/-! ### Artifact fetcher (`downloadConfigVersion`, `extractTarGz`, lines 166-269) -/

/-- The loop of `extractTarGz` (lines 229-266) over what `tarReader.Next` gives.
`tr` is the trace so far. -/
def extractEntries (w : World) (destination : String) :
    List Event → List TarNext → List Event × Except String Unit
  | tr, [] => (tr, .ok ())
  | tr, .failure err :: _ => (tr, .error err)
  | tr, .header flag name _ :: rest =>
    let target := filepathJoin [destination, name]
    if flag = TypeDir then
      match w.fault tr (.mkdirAll target) with
      | some err => (tr ++ [.mkdirAll target], .error err)
      | none => extractEntries w destination (tr ++ [.mkdirAll target]) rest
    else if flag = TypeReg then
      match w.fault tr (.mkdirAll (filepathDir target)) with
      | some err => (tr ++ [.mkdirAll (filepathDir target)], .error err)
      | none =>
        let tr1 := tr ++ [.mkdirAll (filepathDir target)]
        match w.fault tr1 (.create target) with
        | some err => (tr1 ++ [.create target], .error err)
        | none =>
          let tr2 := tr1 ++ [.create target]
          match w.fault tr2 (.copy target) with
          | some err => (tr2 ++ [.copy target], .error err)
          | none => extractEntries w destination (tr2 ++ [.copy target]) rest
    else
      (tr, .error ("unsupported file type: " ++ toString flag ++ " in " ++ name))

/-- `extractTarGz` (lines 214-269). -/
def extractTarGz (w : World) (tr : List Event) (tarGzFile destination : String) :
    List Event × Except String Unit :=
  match w.archive tr tarGzFile with
  | .error err => (tr ++ [.openArchive tarGzFile], .error err)
  | .ok entries => extractEntries w destination (tr ++ [.openArchive tarGzFile]) entries

/-- `downloadConfigVersion` (lines 166-212). -/
def downloadConfigVersion (w : World) (tr : List Event) (url token runID : String) :
    List Event × Except String Unit :=
  match w.newRequest url with
  | some err => (tr, .error err)
  | none =>
    let req := Event.httpDo "GET" url token ""
    match w.response tr req with
    | .error err => (tr ++ [req], .error err)
    | .ok (statusCode, _) =>
      let tr1 := tr ++ [req]
      if statusCode ≠ 200 then
        (tr1, .error ("request failed with status code: " ++ toString statusCode))
      else
        let runDir := filepathJoin [BaseDir, runID]
        match w.fault tr1 (.mkdirAll runDir) with
        | some err => (tr1 ++ [.mkdirAll runDir], .error err)
        | none =>
          let tr2 := tr1 ++ [.mkdirAll runDir]
          let tarGzFile := filepathJoin [runDir, "config.tar.gz"]
          match w.fault tr2 (.create tarGzFile) with
          | some err => (tr2 ++ [.create tarGzFile], .error err)
          | none =>
            let tr3 := tr2 ++ [.create tarGzFile]
            match w.fault tr3 (.copy tarGzFile) with
            | some err => (tr3 ++ [.copy tarGzFile], .error err)
            | none => extractTarGz w (tr3 ++ [.copy tarGzFile]) tarGzFile runDir

/-! ### Result reporter (`sendPatchRequest`, `createPassedResult`,
`createFailedResult`, lines 271-300 and 405-429) -/

/-- `sendPatchRequest` (lines 271-300). -/
def sendPatchRequest (w : World) (tr : List Event) (url payload authToken : String) :
    List Event × Except String Unit :=
  match w.newRequest url with
  | some err => (tr, .error err)
  | none =>
    let req := Event.httpDo "PATCH" url authToken payload
    match w.response tr req with
    | .error err => (tr ++ [req], .error err)
    | .ok (statusCode, _) =>
      if statusCode ≠ 200 then
        (tr ++ [req], .error ("unexpected status code: " ++ toString statusCode))
      else (tr ++ [req], .ok ())

/-- `createPassedResult` (lines 405-416). -/
def createPassedResult (BaseURL message runID : String) : Result :=
  { Data := { type := "task-results",
              Attributes := { Status := "passed", Message := message,
                              URL := BaseURL ++ "/runs/" ++ runID } } }

/-- `createFailedResult` (lines 418-429). -/
def createFailedResult (BaseURL message runID : String) : Result :=
  { Data := { type := "task-results",
              Attributes := { Status := "failed", Message := message,
                              URL := BaseURL ++ "/runs/" ++ runID } } }

/-- `json.Marshal` on a `Result`: the type has string fields only, so there is no
error. -/
def jsonMarshal (w : World) (result : Result) : Except String String :=
  .ok (w.encode result)

/-! ### Graph renderer (`generateTerraformGraph`, lines 360-403) -/

/-- `generateTerraformGraph` (lines 360-403). -/
def generateTerraformGraph (w : World) (tr : List Event) (runDir outputFile : String) :
    List Event × Except String Unit :=
  let tfDir := filepathJoin [runDir, "tf", "demo_server"]
  if w.notExist tr tfDir then
    (tr ++ [.stat tfDir], .error ("tf/demo_server directory not found in " ++ runDir))
  else
    let tr1 := tr ++ [.stat tfDir]
    match w.fault tr1 (.chdir tfDir) with
    | some err =>
      (tr1 ++ [.chdir tfDir], .error ("error changing to tf/demo_server directory: " ++ err))
    | none =>
      let tr2 := tr1 ++ [.chdir tfDir]
      let init := Event.exec tfDir ["terraform", "init"]
      match w.fault tr2 init with
      | some err => (tr2 ++ [init], .error ("error running terraform init: " ++ err))
      | none =>
        let tr3 := tr2 ++ [init]
        let graph := Event.exec tfDir ["terraform", "graph"]
        match w.fault tr3 graph with
        | some err => (tr3 ++ [graph], .error ("error running terraform graph: " ++ err))
        | none =>
          let tr4 := tr3 ++ [graph]
          let dot := Event.exec tfDir ["dot", "-Tpng", "-o", outputFile]
          match w.fault tr4 dot with
          | some err => (tr4 ++ [dot], .error ("error generating PNG from DOT: " ++ err))
          | none => (tr4 ++ [dot], .ok ())

/-! ### Policy scanner (`runRegexOnFolder`, `readRegexPatterns`, lines 431-498) -/

/-- The loop over the patterns (lines 455-466) on the contents of one file. -/
def scanContent (w : World) (content : List Byte) : MatchCounts → List String → MatchCounts
  | matchCounts, [] => matchCounts
  | matchCounts, pattern :: rest =>
    match w.compile pattern with
    | none => scanContent w content matchCounts rest
    | some regex =>
      let found := regex content
      if found ≠ [] then
        scanContent w content (matchCounts.add pattern found.length) rest
      else
        scanContent w content matchCounts rest

mutual
/-- `filepath.Walk` with the function of lines 441-469: the map after the walk
below a node, and the error that stopped the walk, if one did. -/
def walkNode (w : World) (regexPatterns : List String) :
    MatchCounts → FsNode → MatchCounts × Option String
  | m, .file content => (scanContent w content m regexPatterns, none)
  | m, .unreadable err => (m, some err)
  | m, .dir entries => walkEntries w regexPatterns m entries
  | m, .lockedDir err => (m, some err)
  | m, .lstatError err => (m, some err)
/-- The loop of `walk` over the names of a directory. -/
def walkEntries (w : World) (regexPatterns : List String) :
    MatchCounts → FsEntries → MatchCounts × Option String
  | m, .nil => (m, none)
  | m, .cons _ node rest =>
    match walkNode w regexPatterns m node with
    | (m1, some err) => (m1, some err)
    | (m1, none) => walkEntries w regexPatterns m1 rest
end

/-- `runRegexOnFolder` (lines 431-476), with the error of the walk that the code
only logs as a second result. -/
def runRegexOnFolderErr (w : World) (tr : List Event) (baseDir : String)
    (regexPatterns : List String) : List Event × MatchCounts × Option String :=
  let tfDir := filepathJoin [baseDir, "tf", "demo_server"]
  if w.notExist tr tfDir then
    (tr ++ [.stat tfDir], [], none)
  else
    let tr1 := tr ++ [.stat tfDir]
    let r := walkNode w regexPatterns [] (w.tree tr1 tfDir)
    (tr1 ++ [.walk tfDir], r.1, r.2)

/-- `runRegexOnFolder` (lines 431-476): the trace and the map it returns. -/
def runRegexOnFolder (w : World) (tr : List Event) (baseDir : String)
    (regexPatterns : List String) : List Event × MatchCounts :=
  let r := runRegexOnFolderErr w tr baseDir regexPatterns
  (r.1, r.2.1)

/-- `readRegexPatterns` (lines 478-498). -/
def readRegexPatterns (w : World) (tr : List Event) (filePath : String) :
    List Event × Except String (List String) :=
  (tr ++ [.readLines filePath], w.lines tr filePath)

/-! ### Job pipeline (`processJobs`, lines 302-358) -/

/-- The text `fmt.Sprintf("Pattern: %s, Matches: %d\n", pattern, count)`. -/
def patternLine (pattern : String) (count : Int) : String :=
  "Pattern: " ++ pattern ++ ", Matches: " ++ toString count ++ "\n"

/-- The loop of lines 333-337 over the entries of the map, in the order in which
`range` gives them: the text written to `message`. -/
def buildMessage : List (String × Int) → String
  | [] => ""
  | (pattern, count) :: rest =>
    if count > 0 then patternLine pattern count ++ buildMessage rest
    else buildMessage rest

/-- The verdict step (lines 330-343).  `err` is the variable `err` of
`processJobs`, which line 322 assigned last. -/
def verdict (w : World) (tr : List Event) (matchCounts : MatchCounts) (err : Option String)
    (runID : String) : Result :=
  if matchCounts.length > 0 && err.isNone then
    createFailedResult w.BaseURL (buildMessage (w.rangeOrder tr matchCounts)) runID
  else
    createPassedResult w.BaseURL "Configured patterns not found" runID

/-- How the body of the loop of `processJobs` ends for a job: at its last line, or
at one of its `continue` statements. -/
inductive JobEnd where
  | done
  | abandoned
  deriving DecidableEq, Repr

/-- The body of the loop of `processJobs` (lines 304-356) for one job. -/
def processJob (w : World) (tr : List Event) (payload : PrePlanPayload) :
    List Event × JobEnd :=
  let runDir := filepathJoin [BaseDir, payload.RunID]
  match downloadConfigVersion w tr payload.ConfigurationVersionDownloadURL
      payload.AccessToken payload.RunID with
  | (tr1, .error _) => (tr1, .abandoned)
  | (tr1, .ok _) =>
    let graphFile := filepathJoin [runDir, "graph.png"]
    let tr2 := (generateTerraformGraph w tr1 runDir graphFile).1
    let patternsFile := filepathJoin [BaseDir, "patternsFile.txt"]
    match readRegexPatterns w tr2 patternsFile with
    | (tr3, .error _) => (tr3, .abandoned)
    | (tr3, .ok patterns) =>
      let scan := runRegexOnFolder w tr3 runDir patterns
      let result := verdict w scan.1 scan.2 none payload.RunID
      match jsonMarshal w result with
      | .error _ => (scan.1, .abandoned)
      | .ok jsonData =>
        let tr5 := (sendPatchRequest w scan.1 payload.TaskResultCallbackURL jsonData
          payload.AccessToken).1
        (tr5 ++ [.sleep], .done)

/-- `processJobs` (lines 302-358) on the jobs the queue delivers, in order. -/
def processJobs (w : World) : List Event → List PrePlanPayload → List Event
  | tr, [] => tr
  | tr, payload :: rest => processJobs w (processJob w tr payload).1 rest

/-! ### HTTP front door (`handleRequest`, lines 111-141) -/

/-- What `handleRequest` reads of a request. -/
structure Request where
  Method : String
  /-- The result of `io.ReadAll(r.Body)`. -/
  Body : Except String (List Byte)
  /-- The function `r.Header.Get`. -/
  Header : String → List Byte

/-- What a call of `handleRequest` leaves behind. -/
inductive Served where
  /-- The status code and body written, and the job queue after the call. -/
  | responded (status : Nat) (body : String) (jobQueue : List PrePlanPayload)
  /-- The handler waits at the send on the channel, which is full; nothing is
  written and the queue is as it was. -/
  | blocked (jobQueue : List PrePlanPayload)
  deriving DecidableEq, Repr

/-- `http.Error`: the status code with the message and a newline as the body. -/
def httpError (msg : String) (code : Nat) (jobQueue : List PrePlanPayload) : Served :=
  .responded code (msg ++ "\n") jobQueue

/-- `handleRequest` (lines 111-141).  `unmarshal` is `json.Unmarshal` into a
`PrePlanPayload`; `jobQueue` is the contents of the channel. -/
def handleRequest (mac : List Byte → List Byte → List Byte) (hmacKey : List Byte)
    (unmarshal : List Byte → Except String PrePlanPayload)
    (jobQueue : List PrePlanPayload) (r : Request) : Served :=
  if r.Method ≠ "POST" then
    httpError "Method not allowed" 405 jobQueue
  else
    match r.Body with
    | .error err => httpError err 400 jobQueue
    | .ok body =>
      let signature := r.Header "X-TFC-Task-Signature"
      if !verifyHMAC mac hmacKey body signature then
        httpError "Invalid signature" 401 jobQueue
      else
        match unmarshal body with
        | .error err => httpError err 400 jobQueue
        | .ok payload =>
          if jobQueue.length < jobQueueCap then
            .responded 200 "200 OK" (jobQueue ++ [payload])
          else
            .blocked jobQueue

/-! ### Notions used to state the properties -/

/-- The ASCII codes of the sixteen lowercase hexadecimal digits. -/
def lowerHexDigits : List Byte :=
  "0123456789abcdef".data.map Char.toNat

/-- The texts of a list one after the other. -/
def concatLines : List String → String
  | [] => ""
  | l :: rest => l ++ concatLines rest

/-- The status of a verdict. -/
def Result.status (r : Result) : String :=
  r.Data.Attributes.Status

/-- The message of a verdict. -/
def Result.message (r : Result) : String :=
  r.Data.Attributes.Message

/-- A world in which nothing fails and nothing is there: every request is answered
with status 200 and an empty body, archives and files are empty, no pattern
compiles, and `range` goes through a map in the order of its entries. -/
def quietWorld : World where
  newRequest := fun _ => none
  response := fun _ _ => .ok (200, [])
  fault := fun _ _ => none
  notExist := fun _ _ => false
  archive := fun _ _ => .ok []
  lines := fun _ _ => .ok []
  tree := fun _ _ => .dir .nil
  compile := fun _ => none
  rangeOrder := fun _ m => m
  encode := fun r => r.Data.Attributes.Status
  BaseURL := "http://localhost"

/-- The lowercase hexadecimal digit of a value below 16: the ASCII code of the
character at that place of `0123456789abcdef`. -/
def lowerHexDigit (n : Nat) : Byte :=
  ("0123456789abcdef".data.getD n '0').toNat

/-- The lowercase hexadecimal text of a sequence of bytes, in the words of the
specification: for each byte in turn two digits, the one of its high four bits and
then the one of its low four bits. -/
def lowerHexText : List Byte → List Byte
  | [] => []
  | v :: rest =>
    lowerHexDigit (v % 256 / 16) :: lowerHexDigit (v % 256 % 16) :: lowerHexText rest

/-- The value of a lowercase hexadecimal digit given by its ASCII code. -/
def hexDigitValue (c : Byte) : Option Nat :=
  if 48 ≤ c ∧ c ≤ 57 then some (c - 48)
  else if 97 ≤ c ∧ c ≤ 102 then some (c - 87)
  else none

/-- The bytes a lowercase hexadecimal text stands for: each pair of digits gives a
byte, sixteen times the value of the first digit plus the value of the second. -/
def hexDecode : List Byte → Option (List Byte)
  | [] => some []
  | [_] => none
  | hi :: lo :: rest =>
    match hexDigitValue hi, hexDigitValue lo, hexDecode rest with
    | some h, some l, some bytes => some ((16 * h + l) :: bytes)
    | _, _, _ => none

/-- A keyed hash for examples: the first 64 bytes of the key, the body and 64 zero
bytes one after the other, so that the digest depends on the key and on the body. -/
def toyMac : List Byte → List Byte → List Byte :=
  fun key body => (key ++ body ++ List.replicate 64 0).take 64

/-- The text `ab01` followed by 124 digits `0`: the lowercase hexadecimal text of
`toyMac` for the key `[171]` and the body `[1]`. -/
def demoSignature : List Byte :=
  [97, 98, 48, 49] ++ List.replicate 124 48

/-- A keyed hash that gives 64 zero bytes, whatever the key and the body. -/
def zeroMac : List Byte → List Byte → List Byte :=
  fun _ _ => List.replicate 64 0

/-- A request with the method `POST`, an empty body and no signature. -/
def emptyPost : Request where
  Method := "POST"
  Body := .ok []
  Header := fun _ => []

mutual
/-- The contents of the files `filepath.Walk` reads at and below a node, in the
order of the walk and up to the error that stops it; and that error. -/
def FsNode.visited : FsNode → List (List Byte) × Option String
  | .file content => ([content], none)
  | .unreadable err => ([], some err)
  | .dir entries => entries.visited
  | .lockedDir err => ([], some err)
  | .lstatError err => ([], some err)
/-- The same for the entries of a directory. -/
def FsEntries.visited : FsEntries → List (List Byte) × Option String
  | .nil => ([], none)
  | .cons _ node rest =>
    match node.visited with
    | (contents, some err) => (contents, some err)
    | (contents, none) => (contents ++ rest.visited.1, rest.visited.2)
end

mutual
/-- A tree is readable: no node of it is an unreadable file, an unreadable
directory or a path whose `Lstat` fails. -/
def FsNode.readable : FsNode → Bool
  | .file _ => true
  | .unreadable _ => false
  | .dir entries => entries.readable
  | .lockedDir _ => false
  | .lstatError _ => false
/-- The same for the entries of a directory. -/
def FsEntries.readable : FsEntries → Bool
  | .nil => true
  | .cons _ node rest => node.readable && rest.readable
end

mutual
/-- The contents of all the files of a tree; a directory contributes the files
below it and nothing of its own. -/
def FsNode.files : FsNode → List (List Byte)
  | .file content => [content]
  | .unreadable _ => []
  | .dir entries => entries.files
  | .lockedDir _ => []
  | .lstatError _ => []
/-- The same for the entries of a directory. -/
def FsEntries.files : FsEntries → List (List Byte)
  | .nil => []
  | .cons _ node rest => node.files ++ rest.files
end

/-- The number of matches `FindAll(content, -1)` gives for a pattern in the contents
of one file; zero for a pattern that does not compile. -/
def matchCount (w : World) (pattern : String) (content : List Byte) : Int :=
  match w.compile pattern with
  | none => 0
  | some regex => ((regex content).length : Int)

/-- The loop over the patterns, for the contents of several files in turn. -/
def scanAll (w : World) (regexPatterns : List String) (m : MatchCounts)
    (contents : List (List Byte)) : MatchCounts :=
  contents.foldl (fun acc content => scanContent w content acc regexPatterns) m

/-- The directory `tf/demo_server` of a run directory. -/
def tfDirOf (baseDir : String) : String :=
  filepathJoin [baseDir, "tf", "demo_server"]

/-- An element of a path that `filepath.Clean` copies to its output: not empty,
not `.`, not `..`, and without a separator in it. -/
def realElem (e : List Char) : Prop :=
  e ≠ [] ∧ e ≠ ['.'] ∧ e ≠ ['.', '.'] ∧ '/' ∉ e

/-- The output buffer of `filepath.Clean` (last element first) is in order: the
`..` elements are all at its start, none if the path is rooted, and the other
elements are copied ones. -/
def stackOk (rooted : Bool) (out : List (List Char)) : Prop :=
  ∃ (reals : List (List Char)) (k : Nat),
    out = reals ++ List.replicate k ['.', '.'] ∧ (rooted = true → k = 0) ∧
      ∀ e ∈ reals, realElem e

/-- A world like `quietWorld` whose archive has one entry, a regular file with the
name `../../etc/passwd`. -/
def traversalWorld : World :=
  { quietWorld with
    archive := fun _ _ => .ok [.header TypeReg "../../etc/passwd" [114, 111, 111, 116]] }

/-- A world like `quietWorld` whose archive has a directory `tf` and a regular file
`tf/main.tf`. -/
def plainArchiveWorld : World :=
  { quietWorld with
    archive := fun _ _ => .ok [.header TypeDir "tf" [], .header TypeReg "tf/main.tf" [35]] }

/-- An event of the artifact fetcher: the download request, or an operation on the
file system of `downloadConfigVersion` and `extractTarGz`. -/
def Event.isFetch : Event → Bool
  | .httpDo method _ _ _ => decide (method = "GET")
  | .mkdirAll _ => true
  | .create _ => true
  | .copy _ => true
  | .openArchive _ => true
  | _ => false

/-- A callback: a request with the method `PATCH`. -/
def Event.isCallback : Event → Bool
  | .httpDo method _ _ _ => decide (method = "PATCH")
  | _ => false

/-- An event of the graph step: the check of the directory, the change to it, or a
command. -/
def Event.isGraphStep : Event → Bool
  | .stat _ => true
  | .chdir _ => true
  | .exec _ _ => true
  | _ => false

/-- An event of the scan step: the read of the pattern file, the check of the
directory, or the walk. -/
def Event.isScanStep : Event → Bool
  | .readLines _ => true
  | .stat _ => true
  | .walk _ => true
  | _ => false

/-- The run directory of a job. -/
def runDirOf (payload : PrePlanPayload) : String :=
  filepathJoin [BaseDir, payload.RunID]

/-- The path of the pattern file. -/
def patternsFile : String :=
  filepathJoin [BaseDir, "patternsFile.txt"]

/-- The download step of a job. -/
def fetchOf (w : World) (tr : List Event) (payload : PrePlanPayload) :
    List Event × Except String Unit :=
  downloadConfigVersion w tr payload.ConfigurationVersionDownloadURL payload.AccessToken
    payload.RunID

/-- The graph step of a job, after its download step. -/
def graphOf (w : World) (tr : List Event) (payload : PrePlanPayload) :
    List Event × Except String Unit :=
  generateTerraformGraph w (fetchOf w tr payload).1 (runDirOf payload)
    (filepathJoin [runDirOf payload, "graph.png"])

/-- The scan of a job with the patterns read, after its graph step, with the error
of the walk. -/
def scanOf (w : World) (tr : List Event) (payload : PrePlanPayload)
    (patterns : List String) : List Event × MatchCounts × Option String :=
  runRegexOnFolderErr w ((graphOf w tr payload).1 ++ [.readLines patternsFile])
    (runDirOf payload) patterns

/-- The callback of a job: the request that carries the verdict on the scan. -/
def callbackOf (w : World) (tr : List Event) (payload : PrePlanPayload)
    (patterns : List String) : Event :=
  .httpDo "PATCH" payload.TaskResultCallbackURL payload.AccessToken
    (w.encode (verdict w (scanOf w tr payload patterns).1 (scanOf w tr payload patterns).2.1
      none payload.RunID))

/-- A job for the run `run-1`. -/
def demoJob : PrePlanPayload :=
  { (default : PrePlanPayload) with
    AccessToken := "token"
    TaskResultCallbackURL := "https://tfc.example/callback"
    RunID := "run-1"
    ConfigurationVersionDownloadURL := "https://tfc.example/download" }

/-- A world like `quietWorld` in which every request is answered with status 403. -/
def forbiddenWorld : World :=
  { quietWorld with response := fun _ _ => .ok (403, []) }

/-- A world like `quietWorld` with the one pattern `AKIA` in the pattern file and,
in `tf/demo_server`, one file that cannot be read. -/
def walkErrorWorld : World :=
  { quietWorld with
    lines := fun _ _ => .ok ["AKIA"]
    tree := fun _ _ => .dir (.cons "main.tf" (.unreadable "permission denied") .nil) }

/-- A world like `quietWorld` without the directory `tf/demo_server` (so that the
graph step fails) and without the pattern file. -/
def noPatternsWorld : World :=
  { quietWorld with
    notExist := fun _ _ => true
    lines := fun _ _ => .error "open /app/patternsFile.txt: no such file or directory" }

/-- A world like `quietWorld` without the directory `tf/demo_server` (so that the
graph step fails), in which `http.NewRequest` rejects the URL `%zz`. -/
def badURLWorld : World :=
  { quietWorld with
    notExist := fun _ _ => true
    newRequest := fun url => if url = "%zz" then some "invalid URL escape" else none }

/-- A world like `quietWorld` without the directory `tf/demo_server` (so that the
graph step fails). -/
def noGraphWorld : World :=
  { quietWorld with notExist := fun _ _ => true }

/-- A world like `quietWorld` in which the pattern `a` compiles and matches every
byte `a` (97), no other pattern compiles, and `tf/demo_server` holds the file
`main.tf` with the bytes `aba` and the directory `modules` with the file `x.tf` with
the byte `a`. -/
def scanWorld : World :=
  { quietWorld with
    compile := fun p =>
      if p = "a" then
        some (fun content => (content.filter (fun b => decide (b = 97))).map (fun b => [b]))
      else none
    tree := fun _ _ =>
      .dir (.cons "main.tf" (.file [97, 98, 97])
        (.cons "modules" (.dir (.cons "x.tf" (.file [97]) .nil)) .nil)) }

/-! ## Theorems -/

/-! ### Signature verification -/

theorem hextable_mem (n : Nat) (h : n < 16) : hextable n ∈ lowerHexDigits := by
  interval_cases n <;> decide

theorem hexEncodeToString_mem (d : List Byte) :
    ∀ c ∈ hexEncodeToString d, c ∈ lowerHexDigits := by
  induction d with
  | nil => intro c hc; simp [hexEncodeToString] at hc
  | cons v rest ih =>
    intro c hc
    simp only [hexEncodeToString, List.mem_cons] at hc
    rcases hc with h | h | h
    · subst h; exact hextable_mem _ (by omega)
    · subst h; exact hextable_mem _ (by omega)
    · exact ih c h

theorem hexEncodeToString_length (d : List Byte) :
    (hexEncodeToString d).length = 2 * d.length := by
  induction d with
  | nil => rfl
  | cons v rest ih => simp only [hexEncodeToString, List.length_cons, ih]; omega

theorem hextable_eq_lowerHexDigit (n : Nat) (h : n < 16) :
    hextable n = lowerHexDigit n := by
  interval_cases n <;> rfl

theorem hexEncodeToString_eq_lowerHexText (d : List Byte) :
    hexEncodeToString d = lowerHexText d := by
  induction d with
  | nil => rfl
  | cons v rest ih =>
    have h16 : v % 16 = v % 256 % 16 :=
      (Nat.mod_mod_of_dvd v (by decide : 16 ∣ 256)).symm
    simp only [hexEncodeToString, lowerHexText, ih]
    rw [hextable_eq_lowerHexDigit (v % 256 / 16) (by omega), h16,
      hextable_eq_lowerHexDigit (v % 256 % 16) (by omega)]

theorem hexDigitValue_lowerHexDigit (n : Nat) (h : n < 16) :
    hexDigitValue (lowerHexDigit n) = some n := by
  interval_cases n <;> rfl

theorem hexDecode_lowerHexText (d : List Byte) :
    hexDecode (lowerHexText d) = some (d.map (fun v => v % 256)) := by
  induction d with
  | nil => rfl
  | cons v rest ih =>
    have hv : (16 * (v % 256 / 16) + v % 256 % 16 : Nat) = v % 256 := by omega
    simp only [lowerHexText, hexDecode, ih,
      hexDigitValue_lowerHexDigit (v % 256 / 16) (by omega),
      hexDigitValue_lowerHexDigit (v % 256 % 16) (by omega), List.map_cons, hv]

/-- C1: with a non-empty key, `verifyHMAC` accepts exactly the signature that is
the lowercase hexadecimal text of the keyed hash of the body: for each byte of the
digest in turn the digit of `0123456789abcdef` for its high four bits and the one
for its low four bits, a text of 128 digits that decodes to the digest.  It accepts
that signature and rejects every other one, the empty signature among them; with an
empty key it accepts every signature.  The keyed hash is HMAC-SHA512, whose digests
have 64 bytes. -/
theorem verifyHMAC_spec (mac : List Byte → List Byte → List Byte)
    (hmac64 : ∀ key body, (mac key body).length = 64)
    (K B s : List Byte) :
    (K ≠ [] →
      (verifyHMAC mac K B s = true ↔ s = lowerHexText (mac K B)) ∧
      verifyHMAC mac K B (lowerHexText (mac K B)) = true ∧
      (s ≠ lowerHexText (mac K B) → verifyHMAC mac K B s = false) ∧
      verifyHMAC mac K B [] = false ∧
      hexEncodeToString (mac K B) = lowerHexText (mac K B) ∧
      hexDecode (lowerHexText (mac K B)) = some ((mac K B).map (fun v => v % 256)) ∧
      (lowerHexText (mac K B)).length = 128 ∧
      ∀ c ∈ lowerHexText (mac K B), c ∈ lowerHexDigits) ∧
    (K = [] → verifyHMAC mac K B s = true) := by
  have henc := hexEncodeToString_eq_lowerHexText (mac K B)
  have hlen : (lowerHexText (mac K B)).length = 128 := by
    rw [← henc, hexEncodeToString_length, hmac64]
  refine ⟨fun hK => ?_, fun hK => ?_⟩
  · have hK0 : ¬ K.length = 0 := by
      intro h; exact hK (List.length_eq_zero.mp h)
    refine ⟨?_, ?_, ?_, ?_, henc, hexDecode_lowerHexText _, hlen, ?_⟩
    · simp [verifyHMAC, hmacEqual, hK0, henc]
    · simp [verifyHMAC, hmacEqual, hK0, henc]
    · intro hs; simp [verifyHMAC, hmacEqual, hK0, henc, hs]
    · have hne : ([] : List Byte) ≠ lowerHexText (mac K B) := by
        intro h
        have := congrArg List.length h
        rw [hlen] at this
        simp at this
      simp [verifyHMAC, hmacEqual, hK0, henc, hne]
    · rw [← henc]; exact hexEncodeToString_mem _
  · subst hK; simp [verifyHMAC]

theorem toyMac_length (key body : List Byte) : (toyMac key body).length = 64 := by
  simp only [toyMac, List.length_take, List.length_append, List.length_replicate]
  omega

/-- Witness of C1: the key `[171]` and the body `[1]`, with a keyed hash whose
digest starts with the key and the body.  The signature `ab01` followed by 124
digits `0` is what `hex.EncodeToString` gives for the digest and is accepted; the
empty signature, the text of 128 digits `0` and the uppercase text are rejected. -/
theorem verifyHMAC_spec_witness :
    (∀ key body, (toyMac key body).length = 64) ∧
    ([171] : List Byte) ≠ [] ∧
    hexEncodeToString (toyMac [171] [1]) = demoSignature ∧
    demoSignature = lowerHexText (toyMac [171] [1]) ∧
    verifyHMAC toyMac [171] [1] demoSignature = true ∧
    verifyHMAC toyMac [171] [1] [] = false ∧
    verifyHMAC toyMac [171] [1] (List.replicate 128 48) = false ∧
    verifyHMAC toyMac [171] [1] ([65, 66, 48, 49] ++ List.replicate 124 48) = false ∧
    hexDecode demoSignature = some (toyMac [171] [1]) :=
  ⟨toyMac_length, by decide, by decide, by decide,
    ((verifyHMAC_spec toyMac toyMac_length [171] [1] demoSignature).1 (by decide)).1.mpr
      (by decide),
    by decide, by decide, by decide, by decide⟩

/-! ### The verdict step -/

theorem verdict_status_failed (w : World) (tr : List Event) (m : MatchCounts)
    (runID : String) (h : m ≠ []) :
    verdict w tr m none runID =
      createFailedResult w.BaseURL (buildMessage (w.rangeOrder tr m)) runID := by
  have hlen : 0 < m.length := List.length_pos.mpr h
  simp [verdict, hlen]

theorem verdict_status_passed (w : World) (tr : List Event) (runID : String) :
    verdict w tr [] none runID =
      createPassedResult w.BaseURL "Configured patterns not found" runID := by
  simp [verdict]

theorem verdict_failed_iff (w : World) (tr : List Event) (m : MatchCounts)
    (runID : String) : (verdict w tr m none runID).status = "failed" ↔ m ≠ [] := by
  by_cases h : m = []
  · subst h
    simp [verdict_status_passed, Result.status, createPassedResult]
  · simp [verdict_status_failed w tr m runID h, Result.status, createFailedResult, h]

theorem verdict_passed_iff (w : World) (tr : List Event) (m : MatchCounts)
    (runID : String) : (verdict w tr m none runID).status = "passed" ↔ m = [] := by
  by_cases h : m = []
  · subst h
    simp [verdict_status_passed, Result.status, createPassedResult]
  · simp [verdict_status_failed w tr m runID h, Result.status, createFailedResult, h]

theorem buildMessage_eq (order : List (String × Int)) :
    buildMessage order =
      concatLines ((order.filter (fun e => decide (e.2 > 0))).map
        (fun e => patternLine e.1 e.2)) := by
  induction order with
  | nil => rfl
  | cons e rest ih =>
    obtain ⟨p, c⟩ := e
    by_cases hc : c > 0
    · simp [buildMessage, hc, concatLines, ih]
    · simp [buildMessage, hc, ih]

/-- C9: for a map with at least one positive count, gone through by `range` in some
order of its entries, the verdict is `failed` and its message is, for some order of
the entries with a positive count, the lines `Pattern: P, Matches: N` of these
entries one after the other, each ended by a newline; an entry with count 0 has no
line.  For the map with the one entry `AKIA[0-9A-Z]{16}` with count 1 the message is
the line `Pattern: AKIA[0-9A-Z]{16}, Matches: 1`, which contains the pattern and
`Matches: 1`. -/
theorem failure_message_spec (w : World) (tr : List Event) (m : MatchCounts)
    (runID : String) (hrange : ∀ m1 : MatchCounts, (w.rangeOrder tr m1).Perm m1)
    (hpos : ∃ e ∈ m, e.2 > 0) :
    ((verdict w tr m none runID).status = "failed" ∧
      ∃ order : List (String × Int),
        order.Perm (m.filter (fun e => decide (e.2 > 0))) ∧
        (verdict w tr m none runID).message =
          concatLines (order.map (fun e => patternLine e.1 e.2))) ∧
    ((verdict w tr [("AKIA[0-9A-Z]{16}", 1)] none runID).status = "failed" ∧
      (verdict w tr [("AKIA[0-9A-Z]{16}", 1)] none runID).message =
        "Pattern: AKIA[0-9A-Z]{16}, Matches: 1\n" ∧
      "AKIA[0-9A-Z]{16}".data <:+: (verdict w tr [("AKIA[0-9A-Z]{16}", 1)] none runID).message.data ∧
      "Matches: 1".data <:+: (verdict w tr [("AKIA[0-9A-Z]{16}", 1)] none runID).message.data) := by
  constructor
  · obtain ⟨e, he, _⟩ := hpos
    have hne : m ≠ [] := List.ne_nil_of_mem he
    refine ⟨by simp [verdict_status_failed w tr m runID hne, Result.status,
      createFailedResult], ?_⟩
    refine ⟨(w.rangeOrder tr m).filter (fun e => decide (e.2 > 0)),
      (hrange m).filter _, ?_⟩
    simp [verdict_status_failed w tr m runID hne, Result.message, createFailedResult,
      buildMessage_eq]
  · have hone : w.rangeOrder tr [("AKIA[0-9A-Z]{16}", 1)] = [("AKIA[0-9A-Z]{16}", 1)] :=
      List.perm_singleton.mp (hrange _)
    have hmsg : (verdict w tr [("AKIA[0-9A-Z]{16}", 1)] none runID).message =
        "Pattern: AKIA[0-9A-Z]{16}, Matches: 1\n" := by
      rw [verdict_status_failed w tr _ runID (by simp)]
      simp only [Result.message, createFailedResult, hone]
      decide
    refine ⟨by simp [verdict_status_failed, Result.status, createFailedResult], hmsg, ?_, ?_⟩
    · rw [hmsg]; exact ⟨"Pattern: ".data, ", Matches: 1\n".data, by decide⟩
    · rw [hmsg]; exact ⟨"Pattern: AKIA[0-9A-Z]{16}, ".data, "\n".data, by decide⟩

/-- Witness of C9: the map with the entries `a` (count 2) and `b` (count 0), in a
world where `range` follows the order of the entries. -/
theorem failure_message_spec_witness :
    (∀ m1 : MatchCounts, (quietWorld.rangeOrder [] m1).Perm m1) ∧
    (∃ e ∈ ([("a", 2), ("b", 0)] : MatchCounts), e.2 > 0) ∧
    (verdict quietWorld [] [("a", 2), ("b", 0)] none "run-1").status = "failed" ∧
    ∃ order : List (String × Int),
      order.Perm (([("a", 2), ("b", 0)] : MatchCounts).filter (fun e => decide (e.2 > 0))) ∧
      (verdict quietWorld [] [("a", 2), ("b", 0)] none "run-1").message =
        concatLines (order.map (fun e => patternLine e.1 e.2)) :=
  ⟨fun _ => List.Perm.refl _, ⟨("a", 2), by simp, by decide⟩,
    (failure_message_spec quietWorld [] [("a", 2), ("b", 0)] "run-1"
      (fun _ => List.Perm.refl _) ⟨("a", 2), by simp, by decide⟩).1⟩

/-! ### The HTTP front door -/

/-- C4: on a request whose body can be read, `handleRequest` answers 405 if the
method is not `POST`; otherwise 401 if `verifyHMAC` rejects the body and the header
`X-TFC-Task-Signature`; otherwise 400 if the body does not parse; otherwise it sends
the payload on the channel and answers 200 with the body `200 OK` (the send goes
through when the channel holds fewer than its 100 jobs; while the channel is full the
handler waits at the send, with nothing answered and the queue as it was).  The
queue after an answer is the queue before with the payload appended when the answer
is 200, and the queue before when the answer is 405, 401 or 400. -/
theorem handleRequest_spec (mac : List Byte → List Byte → List Byte) (hmacKey : List Byte)
    (unmarshal : List Byte → Except String PrePlanPayload)
    (jobQueue : List PrePlanPayload) (r : Request) (body : List Byte)
    (hbody : r.Body = .ok body) :
    (r.Method ≠ "POST" →
      handleRequest mac hmacKey unmarshal jobQueue r =
        .responded 405 "Method not allowed\n" jobQueue) ∧
    (r.Method = "POST" →
      verifyHMAC mac hmacKey body (r.Header "X-TFC-Task-Signature") = false →
      handleRequest mac hmacKey unmarshal jobQueue r =
        .responded 401 "Invalid signature\n" jobQueue) ∧
    (r.Method = "POST" →
      verifyHMAC mac hmacKey body (r.Header "X-TFC-Task-Signature") = true →
      ∀ err, unmarshal body = .error err →
      handleRequest mac hmacKey unmarshal jobQueue r =
        .responded 400 (err ++ "\n") jobQueue) ∧
    (r.Method = "POST" →
      verifyHMAC mac hmacKey body (r.Header "X-TFC-Task-Signature") = true →
      ∀ payload, unmarshal body = .ok payload →
      (jobQueue.length < jobQueueCap →
        handleRequest mac hmacKey unmarshal jobQueue r =
          .responded 200 "200 OK" (jobQueue ++ [payload])) ∧
      (jobQueueCap ≤ jobQueue.length →
        handleRequest mac hmacKey unmarshal jobQueue r = .blocked jobQueue)) ∧
    (∀ status text queue,
      handleRequest mac hmacKey unmarshal jobQueue r = .responded status text queue →
      (status = 200 ∧ text = "200 OK" ∧
        ∃ payload, unmarshal body = .ok payload ∧ queue = jobQueue ++ [payload]) ∨
      ((status = 405 ∨ status = 401 ∨ status = 400) ∧ queue = jobQueue)) := by
  refine ⟨?_, ?_, ?_, ?_, ?_⟩
  · intro hm
    simp [handleRequest, hm, httpError]
  · intro hm hv
    simp [handleRequest, hm, hbody, hv, httpError]
  · intro hm hv err he
    simp [handleRequest, hm, hbody, hv, he, httpError]
  · intro hm hv payload hp
    constructor
    · intro hroom
      simp [handleRequest, hm, hbody, hv, hp, hroom]
    · intro hfull
      have : ¬ jobQueue.length < jobQueueCap := by omega
      simp [handleRequest, hm, hbody, hv, hp, this]
  · intro status text queue hout
    unfold handleRequest at hout
    rw [hbody] at hout
    by_cases hm : r.Method = "POST"
    · cases hv : verifyHMAC mac hmacKey body (r.Header "X-TFC-Task-Signature")
      · simp [hm, hv, httpError] at hout
        exact Or.inr ⟨Or.inr (Or.inl hout.1.symm), hout.2.2.symm⟩
      · cases hp : unmarshal body with
        | error err =>
          simp [hm, hv, hp, httpError] at hout
          exact Or.inr ⟨Or.inr (Or.inr hout.1.symm), hout.2.2.symm⟩
        | ok payload =>
          by_cases hroom : jobQueue.length < jobQueueCap
          · simp [hm, hv, hp, hroom] at hout
            left
            exact ⟨hout.1.symm, hout.2.1.symm, payload, rfl, hout.2.2.symm⟩
          · simp [hm, hv, hp, hroom] at hout
    · simp [hm, httpError] at hout
      exact Or.inr ⟨Or.inl hout.1.symm, hout.2.2.symm⟩

/-- Witness of C4: a `POST` with an empty body, no key configured, a parser that
accepts every body, and an empty queue. -/
theorem handleRequest_spec_witness :
    emptyPost.Body = .ok [] ∧
    handleRequest zeroMac [] (fun _ => .ok default) [] emptyPost =
      .responded 200 "200 OK" [default] :=
  ⟨rfl, ((handleRequest_spec zeroMac [] (fun _ => .ok default) [] emptyPost [] rfl).2.2.2.1
    rfl rfl default rfl).1 (by decide)⟩

/-! ### The policy scanner -/

theorem MatchCounts.get_add (m : MatchCounts) (k : String) (n : Int) (key : String) :
    MatchCounts.get (MatchCounts.add m k n) key =
      if k = key then MatchCounts.get m key + n else MatchCounts.get m key := by
  induction m with
  | nil =>
    by_cases h : k = key <;> simp [MatchCounts.add, MatchCounts.get, h]
  | cons e rest ih =>
    obtain ⟨k1, v⟩ := e
    by_cases h1 : k1 = k
    · subst h1
      by_cases h : k1 = key <;> simp [MatchCounts.add, MatchCounts.get, h]
    · by_cases h : k = key
      · subst h
        simp [MatchCounts.add, MatchCounts.get, h1, ih]
      · by_cases h2 : k1 = key
        · subst h2
          simp [MatchCounts.add, MatchCounts.get, h1, h]
        · simp [MatchCounts.add, MatchCounts.get, h1, h2, ih, h]

theorem MatchCounts.add_ne_nil (m : MatchCounts) (k : String) (n : Int) :
    MatchCounts.add m k n ≠ [] := by
  cases m with
  | nil => simp [MatchCounts.add]
  | cons e rest =>
    obtain ⟨k1, v⟩ := e
    by_cases h : k1 = k <;> simp [MatchCounts.add, h]

theorem MatchCounts.add_pos (m : MatchCounts) (k : String) (n : Int) (hn : 1 ≤ n)
    (hm : ∀ e ∈ m, 1 ≤ e.2) : ∀ e ∈ MatchCounts.add m k n, 1 ≤ e.2 := by
  induction m with
  | nil =>
    intro e he
    simp [MatchCounts.add] at he
    subst he; exact hn
  | cons e1 rest ih =>
    obtain ⟨k1, v⟩ := e1
    have hv : 1 ≤ v := hm (k1, v) (List.mem_cons_self _ _)
    have hrest : ∀ e ∈ rest, 1 ≤ e.2 := fun e he => hm e (List.mem_cons_of_mem _ he)
    intro e he
    by_cases h : k1 = k
    · simp only [MatchCounts.add, h, if_true, List.mem_cons] at he
      rcases he with he | he
      · subst he; show 1 ≤ v + n; omega
      · exact hrest e he
    · simp only [MatchCounts.add, h, if_false, List.mem_cons] at he
      rcases he with he | he
      · subst he; exact hv
      · exact ih hrest e he

theorem MatchCounts.not_key_of_get_zero (m : MatchCounts) (key : String)
    (hm : ∀ e ∈ m, 1 ≤ e.2) (h0 : MatchCounts.get m key = 0) :
    key ∉ m.map Prod.fst := by
  induction m with
  | nil => simp
  | cons e rest ih =>
    obtain ⟨k1, v⟩ := e
    have hv : 1 ≤ v := hm (k1, v) (List.mem_cons_self _ _)
    by_cases h : k1 = key
    · simp [MatchCounts.get, h] at h0
      omega
    · simp only [MatchCounts.get, h, if_false] at h0
      have := ih (fun e he => hm e (List.mem_cons_of_mem _ he)) h0
      simp only [List.map_cons, List.mem_cons, not_or]
      exact ⟨fun hk => h hk.symm, this⟩

theorem get_scanContent (w : World) (content : List Byte) (ps : List String)
    (m : MatchCounts) (key : String) :
    MatchCounts.get (scanContent w content m ps) key =
      MatchCounts.get m key + (ps.count key : Int) * matchCount w key content := by
  induction ps generalizing m with
  | nil => simp [scanContent]
  | cons p rest ih =>
    cases hc : w.compile p with
    | none =>
      simp only [scanContent, hc, ih]
      by_cases hk : p = key
      · subst hk; simp [matchCount, hc]
      · have : List.count key (p :: rest) = List.count key rest := by
          simp [List.count_cons, hk]
        rw [this]
    | some regex =>
      by_cases hf : regex content = []
      · simp only [scanContent, hc, hf, ne_eq, not_true_eq_false, if_false, ih]
        by_cases hk : p = key
        · subst hk; simp [matchCount, hc, hf]
        · have : List.count key (p :: rest) = List.count key rest := by
            simp [List.count_cons, hk]
          rw [this]
      · simp only [scanContent, hc, hf, ne_eq, not_false_eq_true, if_true, ih,
          MatchCounts.get_add]
        by_cases hk : p = key
        · subst hk
          simp only [if_true, matchCount, hc, List.count_cons_self]
          push_cast
          ring
        · have : List.count key (p :: rest) = List.count key rest := by
            simp [List.count_cons, hk]
          rw [this]; simp [hk]

theorem get_scanAll (w : World) (ps : List String) (contents : List (List Byte))
    (m : MatchCounts) (key : String) :
    MatchCounts.get (scanAll w ps m contents) key =
      MatchCounts.get m key +
        (ps.count key : Int) * (contents.map (matchCount w key)).sum := by
  induction contents generalizing m with
  | nil => simp [scanAll]
  | cons c rest ih =>
    have h := ih (scanContent w c m ps)
    simp only [scanAll, List.foldl_cons] at h ⊢
    rw [h, get_scanContent]
    simp only [List.map_cons, List.sum_cons]
    ring

theorem scanContent_filter (w : World) (content : List Byte) (ps : List String)
    (m : MatchCounts) :
    scanContent w content m (ps.filter (fun p => (w.compile p).isSome)) =
      scanContent w content m ps := by
  induction ps generalizing m with
  | nil => rfl
  | cons p rest ih =>
    cases hc : w.compile p with
    | none => simp [scanContent, hc, List.filter_cons, ih]
    | some regex =>
      by_cases hf : regex content = [] <;>
        simp [scanContent, hc, List.filter_cons, ih, hf]

theorem scanAll_filter (w : World) (ps : List String) (contents : List (List Byte))
    (m : MatchCounts) :
    scanAll w (ps.filter (fun p => (w.compile p).isSome)) m contents =
      scanAll w ps m contents := by
  induction contents generalizing m with
  | nil => rfl
  | cons c rest ih =>
    simp only [scanAll, List.foldl_cons] at ih ⊢
    rw [scanContent_filter, ih]

theorem scanContent_pos (w : World) (content : List Byte) (ps : List String)
    (m : MatchCounts) (hm : ∀ e ∈ m, 1 ≤ e.2) :
    ∀ e ∈ scanContent w content m ps, 1 ≤ e.2 := by
  induction ps generalizing m with
  | nil => simpa [scanContent] using hm
  | cons p rest ih =>
    cases hc : w.compile p with
    | none => simpa [scanContent, hc] using ih m hm
    | some regex =>
      by_cases hf : regex content = []
      · simpa [scanContent, hc, hf] using ih m hm
      · have hlen : (1 : Int) ≤ ((regex content).length : Int) := by
          have := List.length_pos.mpr hf
          omega
        simpa [scanContent, hc, hf] using
          ih _ (MatchCounts.add_pos m p _ hlen hm)

theorem scanAll_pos (w : World) (ps : List String) (contents : List (List Byte))
    (m : MatchCounts) (hm : ∀ e ∈ m, 1 ≤ e.2) :
    ∀ e ∈ scanAll w ps m contents, 1 ≤ e.2 := by
  induction contents generalizing m with
  | nil => simpa [scanAll] using hm
  | cons c rest ih =>
    simp only [scanAll, List.foldl_cons] at ih ⊢
    exact ih _ (scanContent_pos w c ps m hm)

theorem scanContent_ne_nil (w : World) (content : List Byte) (ps : List String)
    (m : MatchCounts) (hm : m ≠ []) : scanContent w content m ps ≠ [] := by
  induction ps generalizing m with
  | nil => simpa [scanContent] using hm
  | cons p rest ih =>
    cases hc : w.compile p with
    | none => simpa [scanContent, hc] using ih m hm
    | some regex =>
      by_cases hf : regex content = []
      · simpa [scanContent, hc, hf] using ih m hm
      · simpa [scanContent, hc, hf] using ih _ (MatchCounts.add_ne_nil m p _)

theorem scanContent_eq_nil (w : World) (content : List Byte) (ps : List String) :
    scanContent w content [] ps = [] ↔
      ∀ p ∈ ps, ∀ regex, w.compile p = some regex → regex content = [] := by
  induction ps with
  | nil => simp [scanContent]
  | cons p rest ih =>
    cases hc : w.compile p with
    | none =>
      simp only [scanContent, hc, ih, List.mem_cons, forall_eq_or_imp]
      constructor
      · intro h; exact ⟨fun regex hr => by simp at hr, h⟩
      · intro h; exact h.2
    | some regex =>
      by_cases hf : regex content = []
      · simp only [scanContent, hc, hf, ne_eq, not_true_eq_false, if_false, ih,
          List.mem_cons, forall_eq_or_imp]
        constructor
        · intro h
          refine ⟨fun r hr => ?_, h⟩
          simp only [Option.some.injEq] at hr
          subst hr; exact hf
        · intro h; exact h.2
      · simp only [scanContent, hc, hf, ne_eq, not_false_eq_true, if_true,
          List.mem_cons, forall_eq_or_imp]
        constructor
        · intro h
          exact absurd h (scanContent_ne_nil w content rest _ (MatchCounts.add_ne_nil _ _ _))
        · intro h
          exact absurd (h.1 regex rfl) hf

theorem scanAll_ne_nil (w : World) (ps : List String) (contents : List (List Byte))
    (m : MatchCounts) (hm : m ≠ []) : scanAll w ps m contents ≠ [] := by
  induction contents generalizing m with
  | nil => simpa [scanAll] using hm
  | cons c rest ih =>
    simp only [scanAll, List.foldl_cons] at ih ⊢
    exact ih _ (scanContent_ne_nil w c ps m hm)

theorem scanAll_eq_nil (w : World) (ps : List String) (contents : List (List Byte)) :
    scanAll w ps [] contents = [] ↔
      ∀ content ∈ contents, ∀ p ∈ ps, ∀ regex, w.compile p = some regex →
        regex content = [] := by
  induction contents with
  | nil => simp [scanAll]
  | cons c rest ih =>
    simp only [List.mem_cons, forall_eq_or_imp]
    rw [← scanContent_eq_nil, ← ih]
    simp only [scanAll, List.foldl_cons]
    by_cases h : scanContent w c [] ps = []
    · rw [h]; simp
    · constructor
      · intro hnil
        exact absurd hnil (scanAll_ne_nil w ps rest _ h)
      · intro hh; exact absurd hh.1 h

theorem scanAll_append (w : World) (ps : List String) (m : MatchCounts)
    (xs ys : List (List Byte)) :
    scanAll w ps m (xs ++ ys) = scanAll w ps (scanAll w ps m xs) ys := by
  simp [scanAll, List.foldl_append]

mutual
theorem walkNode_eq (w : World) (ps : List String) :
    ∀ (node : FsNode) (m : MatchCounts),
      walkNode w ps m node = (scanAll w ps m node.visited.1, node.visited.2)
  | .file content, m => by simp [walkNode, FsNode.visited, scanAll]
  | .unreadable err, m => by simp [walkNode, FsNode.visited, scanAll]
  | .dir entries, m => by
    simp only [walkNode, FsNode.visited]
    exact walkEntries_eq w ps entries m
  | .lockedDir err, m => by simp [walkNode, FsNode.visited, scanAll]
  | .lstatError err, m => by simp [walkNode, FsNode.visited, scanAll]
theorem walkEntries_eq (w : World) (ps : List String) :
    ∀ (entries : FsEntries) (m : MatchCounts),
      walkEntries w ps m entries = (scanAll w ps m entries.visited.1, entries.visited.2)
  | .nil, m => by simp [walkEntries, FsEntries.visited, scanAll]
  | .cons name node rest, m => by
    have h1 := walkNode_eq w ps node m
    have h2 := walkEntries_eq w ps rest (scanAll w ps m node.visited.1)
    simp only [walkEntries, FsEntries.visited, h1]
    cases hv : node.visited with
    | mk contents err =>
      rw [hv] at h2
      cases err with
      | some e => simp
      | none => simp [h2, scanAll_append]
end

mutual
theorem visited_of_readable_node :
    ∀ (node : FsNode), node.readable = true → node.visited = (node.files, none)
  | .file content, _ => by simp [FsNode.visited, FsNode.files]
  | .unreadable err, h => by simp [FsNode.readable] at h
  | .dir entries, h => by
    simp only [FsNode.readable] at h
    simp only [FsNode.visited, FsNode.files]
    exact visited_of_readable_entries entries h
  | .lockedDir err, h => by simp [FsNode.readable] at h
  | .lstatError err, h => by simp [FsNode.readable] at h
theorem visited_of_readable_entries :
    ∀ (entries : FsEntries), entries.readable = true → entries.visited = (entries.files, none)
  | .nil, _ => by simp [FsEntries.visited, FsEntries.files]
  | .cons name node rest, h => by
    simp only [FsEntries.readable, Bool.and_eq_true] at h
    have h1 := visited_of_readable_node node h.1
    have h2 := visited_of_readable_entries rest h.2
    simp [FsEntries.visited, FsEntries.files, h1, h2]
end

theorem runRegexOnFolder_missing (w : World) (tr : List Event) (baseDir : String)
    (ps : List String) (h : w.notExist tr (tfDirOf baseDir) = true) :
    (runRegexOnFolder w tr baseDir ps).2 = [] := by
  simp only [tfDirOf] at h
  simp [runRegexOnFolder, runRegexOnFolderErr, h]

theorem runRegexOnFolder_present (w : World) (tr : List Event) (baseDir : String)
    (ps : List String) (h : w.notExist tr (tfDirOf baseDir) = false) :
    (runRegexOnFolder w tr baseDir ps).2 =
      scanAll w ps []
        (w.tree (tr ++ [.stat (tfDirOf baseDir)]) (tfDirOf baseDir)).visited.1 := by
  simp only [tfDirOf] at h
  simp [runRegexOnFolder, runRegexOnFolderErr, h, walkNode_eq, tfDirOf]

theorem runRegexOnFolder_entries_pos (w : World) (tr : List Event) (baseDir : String)
    (patterns : List String) :
    ∀ e ∈ (runRegexOnFolder w tr baseDir patterns).2, 1 ≤ e.2 := by
  cases hdir : w.notExist tr (tfDirOf baseDir)
  · rw [runRegexOnFolder_present w tr baseDir _ hdir]
    exact scanAll_pos w patterns _ [] (by simp)
  · rw [runRegexOnFolder_missing w tr baseDir _ hdir]; simp

/-- C8: when the directory `tf/demo_server` exists and the tree below it is
readable, `runRegexOnFolder` maps each pattern to the sum, over the files of the
tree, of the number of matches `FindAll` gives for the pattern in the contents of
the file, once for each time the pattern is in the list; so for a list without
repetition (a set of patterns) each pattern that compiles is mapped to that sum.  A
pattern that does not compile has no entry, and the map is the one the scan gives
for the list of the patterns that compile. -/
theorem runRegexOnFolder_counts (w : World) (tr : List Event) (baseDir : String)
    (patterns : List String)
    (hdir : w.notExist tr (tfDirOf baseDir) = false)
    (hread : (w.tree (tr ++ [.stat (tfDirOf baseDir)]) (tfDirOf baseDir)).readable = true) :
    (∀ p, MatchCounts.get (runRegexOnFolder w tr baseDir patterns).2 p =
      (patterns.count p : Int) *
        ((w.tree (tr ++ [.stat (tfDirOf baseDir)]) (tfDirOf baseDir)).files.map
          (matchCount w p)).sum) ∧
    (patterns.Nodup → ∀ p ∈ patterns, ∀ regex, w.compile p = some regex →
      MatchCounts.get (runRegexOnFolder w tr baseDir patterns).2 p =
        ((w.tree (tr ++ [.stat (tfDirOf baseDir)]) (tfDirOf baseDir)).files.map
          (fun content => ((regex content).length : Int))).sum) ∧
    (∀ p, w.compile p = none →
      MatchCounts.get (runRegexOnFolder w tr baseDir patterns).2 p = 0 ∧
      p ∉ (runRegexOnFolder w tr baseDir patterns).2.map Prod.fst) ∧
    (runRegexOnFolder w tr baseDir patterns).2 =
      (runRegexOnFolder w tr baseDir
        (patterns.filter (fun p => (w.compile p).isSome))).2 := by
  have hvis := visited_of_readable_node _ hread
  rw [runRegexOnFolder_present w tr baseDir _ hdir,
    runRegexOnFolder_present w tr baseDir _ hdir, hvis]
  refine ⟨?_, ?_, ?_, ?_⟩
  · intro p
    rw [get_scanAll]
    simp [MatchCounts.get]
  · intro hset p hp regex hc
    rw [get_scanAll, List.count_eq_one_of_mem hset hp]
    have : matchCount w p = fun content => ((regex content).length : Int) := by
      funext content; simp [matchCount, hc]
    simp [this, MatchCounts.get]
  · intro p hc
    have h0 : MatchCounts.get (scanAll w patterns []
        (w.tree (tr ++ [.stat (tfDirOf baseDir)]) (tfDirOf baseDir)).files) p = 0 := by
      rw [get_scanAll]
      have : matchCount w p = fun _ => (0 : Int) := by
        funext content; simp [matchCount, hc]
      simp [this, MatchCounts.get]
    exact ⟨h0, MatchCounts.not_key_of_get_zero _ p
      (scanAll_pos w patterns _ [] (by simp)) h0⟩
  · exact (scanAll_filter w patterns _ []).symm

/-- Witness of C8: the patterns `a`, which compiles, and `(`, which does not, on a
tree with the files `aba` and `a`: the pattern `a` is mapped to 3 and `(` has no
entry. -/
theorem runRegexOnFolder_counts_witness :
    scanWorld.notExist [] (tfDirOf "/app/run-1") = false ∧
    (scanWorld.tree ([] ++ [.stat (tfDirOf "/app/run-1")])
      (tfDirOf "/app/run-1")).readable = true ∧
    (["a", "("] : List String).Nodup ∧
    MatchCounts.get (runRegexOnFolder scanWorld [] "/app/run-1" ["a", "("]).2 "a" = 3 ∧
    "(" ∉ (runRegexOnFolder scanWorld [] "/app/run-1" ["a", "("]).2.map Prod.fst :=
  ⟨rfl, rfl, by decide,
    (runRegexOnFolder_counts scanWorld [] "/app/run-1" ["a", "("] rfl rfl).2.1 (by decide)
      "a" (by simp) _ rfl,
    ((runRegexOnFolder_counts scanWorld [] "/app/run-1" ["a", "("] rfl rfl).2.2.1
      "(" rfl).2⟩

/-- C10: every entry of the map `runRegexOnFolder` returns has a count of at least
1; the map is empty exactly when the directory `tf/demo_server` is missing or no
pattern that compiles has a match in a file the walk read; and the map has an entry
exactly when it has an entry with a positive count, so the test
`len(matchCounts) > 0` of `processJobs` is the test for a positive count. -/
theorem runRegexOnFolder_positive (w : World) (tr : List Event) (baseDir : String)
    (patterns : List String) (runID : String) :
    (∀ e ∈ (runRegexOnFolder w tr baseDir patterns).2, 1 ≤ e.2) ∧
    ((runRegexOnFolder w tr baseDir patterns).2 = [] ↔
      (w.notExist tr (tfDirOf baseDir) = true ∨
        ∀ content ∈
          (w.tree (tr ++ [.stat (tfDirOf baseDir)]) (tfDirOf baseDir)).visited.1,
          ∀ p ∈ patterns, ∀ regex, w.compile p = some regex → regex content = [])) ∧
    (w.notExist tr (tfDirOf baseDir) = true →
      (runRegexOnFolder w tr baseDir patterns).2 = []) ∧
    ((runRegexOnFolder w tr baseDir patterns).2.length > 0 ↔
      ∃ e ∈ (runRegexOnFolder w tr baseDir patterns).2, e.2 > 0) ∧
    ((verdict w (runRegexOnFolder w tr baseDir patterns).1
        (runRegexOnFolder w tr baseDir patterns).2 none runID).status = "failed" ↔
      ∃ e ∈ (runRegexOnFolder w tr baseDir patterns).2, e.2 > 0) := by
  have hpos : ∀ e ∈ (runRegexOnFolder w tr baseDir patterns).2, 1 ≤ e.2 := by
    cases hdir : w.notExist tr (tfDirOf baseDir)
    · rw [runRegexOnFolder_present w tr baseDir _ hdir]
      exact scanAll_pos w patterns _ [] (by simp)
    · rw [runRegexOnFolder_missing w tr baseDir _ hdir]; simp
  have hlen : (runRegexOnFolder w tr baseDir patterns).2.length > 0 ↔
      ∃ e ∈ (runRegexOnFolder w tr baseDir patterns).2, e.2 > 0 := by
    constructor
    · intro h
      obtain ⟨e, he⟩ := List.exists_mem_of_length_pos h
      exact ⟨e, he, by have := hpos e he; omega⟩
    · rintro ⟨e, he, _⟩
      exact List.length_pos_of_mem he
  refine ⟨hpos, ?_, ?_, hlen, ?_⟩
  · cases hdir : w.notExist tr (tfDirOf baseDir)
    · rw [runRegexOnFolder_present w tr baseDir _ hdir, scanAll_eq_nil]
      simp
    · rw [runRegexOnFolder_missing w tr baseDir _ hdir]; simp
  · exact runRegexOnFolder_missing w tr baseDir patterns
  · rw [← hlen, verdict_failed_iff]
    exact List.length_pos.symm

/-- C3: the verdict step of `processJobs` is given the map `runRegexOnFolder`
returned (line 328).  On every such map the status of the verdict is `failed` if
some pattern of the map has a count greater than 0, and `passed` if every count of
the map is zero or the map is empty; the status is one of the two, `failed` exactly
when some count is positive.  This holds for the verdict in the callback of a job,
which is the verdict on the map of the scan of that job. -/
theorem verdict_on_scan (w : World) (tr trv : List Event) (baseDir : String)
    (patterns : List String) (runID : String) (payload : PrePlanPayload) :
    ((∃ e ∈ (runRegexOnFolder w tr baseDir patterns).2, e.2 > 0) →
      (verdict w trv (runRegexOnFolder w tr baseDir patterns).2 none runID).status =
        "failed") ∧
    ((∀ e ∈ (runRegexOnFolder w tr baseDir patterns).2, e.2 = 0) →
      (verdict w trv (runRegexOnFolder w tr baseDir patterns).2 none runID).status =
        "passed") ∧
    ((runRegexOnFolder w tr baseDir patterns).2 = [] →
      (verdict w trv (runRegexOnFolder w tr baseDir patterns).2 none runID).status =
        "passed") ∧
    ((verdict w trv (runRegexOnFolder w tr baseDir patterns).2 none runID).status =
        "failed" ↔
      ∃ e ∈ (runRegexOnFolder w tr baseDir patterns).2, e.2 > 0) ∧
    ((verdict w trv (runRegexOnFolder w tr baseDir patterns).2 none runID).status =
        "passed" ↔
      ∀ e ∈ (runRegexOnFolder w tr baseDir patterns).2, e.2 = 0) ∧
    (scanOf w tr payload patterns).2.1 =
      (runRegexOnFolder w ((graphOf w tr payload).1 ++ [.readLines patternsFile])
        (runDirOf payload) patterns).2 ∧
    callbackOf w tr payload patterns =
      .httpDo "PATCH" payload.TaskResultCallbackURL payload.AccessToken
        (w.encode (verdict w (scanOf w tr payload patterns).1
          (runRegexOnFolder w ((graphOf w tr payload).1 ++ [.readLines patternsFile])
            (runDirOf payload) patterns).2 none payload.RunID)) := by
  have hpos := runRegexOnFolder_entries_pos w tr baseDir patterns
  have hfailed : (verdict w trv (runRegexOnFolder w tr baseDir patterns).2 none runID).status =
      "failed" ↔ ∃ e ∈ (runRegexOnFolder w tr baseDir patterns).2, e.2 > 0 := by
    rw [verdict_failed_iff]
    constructor
    · intro hne
      obtain ⟨e, he⟩ := List.exists_mem_of_ne_nil _ hne
      exact ⟨e, he, by have := hpos e he; omega⟩
    · rintro ⟨e, he, _⟩
      exact List.ne_nil_of_mem he
  have hpassed : (verdict w trv (runRegexOnFolder w tr baseDir patterns).2 none runID).status =
      "passed" ↔ ∀ e ∈ (runRegexOnFolder w tr baseDir patterns).2, e.2 = 0 := by
    rw [verdict_passed_iff]
    constructor
    · intro hnil e he
      rw [hnil] at he
      simp at he
    · intro hzero
      by_contra hne
      obtain ⟨e, he⟩ := List.exists_mem_of_ne_nil _ hne
      have h1 := hpos e he
      have h0 := hzero e he
      omega
  refine ⟨hfailed.mpr, hpassed.mpr, ?_, hfailed, hpassed, rfl, rfl⟩
  intro hnil
  exact (verdict_passed_iff w trv _ runID).mpr hnil

/-- Witness of C3: with the pattern `a` and files that hold the byte `a` the scan
returns the map with `a` at 3, the verdict is `failed` and the callback of the job
carries `failed`; with no pattern that compiles the scan returns the empty map, the
verdict is `passed` and the callback carries `passed`. -/
theorem verdict_on_scan_witness :
    (runRegexOnFolder scanWorld [] "/app/run-1" ["a", "("]).2 = [("a", 3)] ∧
    (∃ e ∈ (runRegexOnFolder scanWorld [] "/app/run-1" ["a", "("]).2, e.2 > 0) ∧
    (verdict scanWorld [] (runRegexOnFolder scanWorld [] "/app/run-1" ["a", "("]).2 none
      "run-1").status = "failed" ∧
    callbackOf scanWorld [] demoJob ["a", "("] =
      .httpDo "PATCH" "https://tfc.example/callback" "token" "failed" ∧
    (runRegexOnFolder scanWorld [] "/app/run-1" ["("]).2 = [] ∧
    (verdict scanWorld [] (runRegexOnFolder scanWorld [] "/app/run-1" ["("]).2 none
      "run-1").status = "passed" ∧
    callbackOf scanWorld [] demoJob ["("] =
      .httpDo "PATCH" "https://tfc.example/callback" "token" "passed" :=
  ⟨rfl, ⟨("a", 3), by decide, by decide⟩,
    (verdict_on_scan scanWorld [] [] "/app/run-1" ["a", "("] "run-1" demoJob).1
      ⟨("a", 3), by decide, by decide⟩,
    rfl, rfl,
    (verdict_on_scan scanWorld [] [] "/app/run-1" ["("] "run-1" demoJob).2.2.1 rfl,
    rfl⟩

/-! ### Paths -/

theorem splitSlash_ne_nil (l : List Char) : splitSlash l ≠ [] := by
  cases l with
  | nil => simp [splitSlash]
  | cons c cs =>
    by_cases h : c = '/'
    · simp [splitSlash, h]
    · cases hs : splitSlash cs <;> simp [splitSlash, h, hs]

theorem splitSlash_append (a b : List Char) :
    splitSlash (a ++ '/' :: b) = splitSlash a ++ splitSlash b := by
  induction a with
  | nil => simp [splitSlash]
  | cons c cs ih =>
    by_cases h : c = '/'
    · simp [splitSlash, h, ih]
    · cases hs : splitSlash cs with
      | nil => exact absurd hs (splitSlash_ne_nil cs)
      | cons x xs => simp [splitSlash, h, ih, hs]

theorem splitSlash_noSlash (l : List Char) : ∀ e ∈ splitSlash l, '/' ∉ e := by
  induction l with
  | nil => intro e he; simp [splitSlash] at he; subst he; simp
  | cons c cs ih =>
    intro e he
    by_cases h : c = '/'
    · simp only [splitSlash, h, if_true, List.mem_cons] at he
      rcases he with he | he
      · subst he; simp
      · exact ih e he
    · cases hs : splitSlash cs with
      | nil => exact absurd hs (splitSlash_ne_nil cs)
      | cons x xs =>
        rw [hs] at ih
        simp only [splitSlash, h, if_false, hs, List.mem_cons] at he
        rcases he with he | he
        · subst he
          have hx := ih x (List.mem_cons_self _ _)
          simp only [List.mem_cons, not_or]
          exact ⟨fun hc => h hc.symm, hx⟩
        · exact ih e (List.mem_cons_of_mem _ he)

theorem splitSlash_of_noSlash (e : List Char) (h : '/' ∉ e) : splitSlash e = [e] := by
  induction e with
  | nil => rfl
  | cons c cs ih =>
    simp only [List.mem_cons, not_or] at h
    have hc : c ≠ '/' := fun hc => h.1 hc.symm
    simp [splitSlash, hc, ih h.2]

theorem splitSlash_joinSlash (elems : List (List Char)) (hne : elems ≠ [])
    (h : ∀ e ∈ elems, '/' ∉ e) : splitSlash (joinSlash elems) = elems := by
  induction elems with
  | nil => exact absurd rfl hne
  | cons e rest ih =>
    cases rest with
    | nil => simpa [joinSlash] using splitSlash_of_noSlash e (h e (List.mem_cons_self _ _))
    | cons e2 rest2 =>
      have h1 := splitSlash_of_noSlash e (h e (List.mem_cons_self _ _))
      have h2 := ih (by simp) (fun x hx => h x (List.mem_cons_of_mem _ hx))
      simp only [joinSlash, splitSlash_append, h1, h2, List.singleton_append]

theorem cleanStep_real (rooted : Bool) (out : List (List Char)) (e : List Char)
    (h : realElem e) : cleanStep rooted out e = e :: out := by
  obtain ⟨h1, h2, h3, _⟩ := h
  simp [cleanStep, h1, h2, h3]

theorem foldl_cleanStep_reals (rooted : Bool) (reals out : List (List Char))
    (h : ∀ e ∈ reals, realElem e) :
    reals.foldl (cleanStep rooted) out = reals.reverse ++ out := by
  induction reals generalizing out with
  | nil => simp
  | cons e rest ih =>
    rw [List.foldl_cons, cleanStep_real rooted out e (h e (List.mem_cons_self _ _)),
      ih _ (fun x hx => h x (List.mem_cons_of_mem _ hx))]
    simp

theorem foldl_cleanStep_dotdots (k j : Nat) :
    (List.replicate k ['.', '.']).foldl (cleanStep false) (List.replicate j ['.', '.']) =
      List.replicate (j + k) ['.', '.'] := by
  induction k generalizing j with
  | zero => simp
  | succ n ih =>
    have hstep : cleanStep false (List.replicate j ['.', '.']) ['.', '.'] =
        List.replicate (j + 1) ['.', '.'] := by
      cases j with
      | zero => simp [cleanStep]
      | succ i => simp [cleanStep, List.replicate_succ]
    rw [List.replicate_succ, List.foldl_cons, hstep, ih]
    congr 1; omega

theorem cleanStep_ok (rooted : Bool) (out : List (List Char)) (elem : List Char)
    (hout : stackOk rooted out) (hs : '/' ∉ elem) :
    stackOk rooted (cleanStep rooted out elem) := by
  obtain ⟨reals, k, rfl, hk, hreal⟩ := hout
  by_cases h1 : elem = []
  · simpa [cleanStep, h1] using ⟨reals, k, rfl, hk, hreal⟩
  by_cases h2 : elem = ['.']
  · simpa [cleanStep, h2] using ⟨reals, k, rfl, hk, hreal⟩
  by_cases h3 : elem = ['.', '.']
  · subst h3
    cases reals with
    | nil =>
      cases k with
      | zero =>
        cases rooted with
        | true => simpa [cleanStep] using ⟨[], 0, rfl, hk, hreal⟩
        | false =>
          have : cleanStep false ([] ++ List.replicate 0 ['.', '.']) ['.', '.'] =
              [] ++ List.replicate 1 ['.', '.'] := by
            simp [cleanStep]
          rw [this]
          exact ⟨[], 1, rfl, by simp, by simp⟩
      | succ i =>
        cases rooted with
        | true => exact absurd (hk rfl) (by simp)
        | false =>
          have : cleanStep false ([] ++ List.replicate (i + 1) ['.', '.']) ['.', '.'] =
              [] ++ List.replicate (i + 2) ['.', '.'] := by
            simp [cleanStep, List.replicate_succ]
          rw [this]
          exact ⟨[], i + 2, rfl, by simp, by simp⟩
    | cons top below =>
      have htop : top ≠ ['.', '.'] := (hreal top (List.mem_cons_self _ _)).2.2.1
      have : cleanStep rooted ((top :: below) ++ List.replicate k ['.', '.']) ['.', '.'] =
          below ++ List.replicate k ['.', '.'] := by
        simp [cleanStep, htop]
      rw [this]
      exact ⟨below, k, rfl, hk, fun e he => hreal e (List.mem_cons_of_mem _ he)⟩
  · have hr : realElem elem := ⟨h1, h2, h3, hs⟩
    rw [cleanStep_real rooted _ elem hr]
    refine ⟨elem :: reals, k, by simp, hk, ?_⟩
    intro e he
    rcases List.mem_cons.mp he with he | he
    · subst he; exact hr
    · exact hreal e he

theorem foldl_cleanStep_ok (rooted : Bool) (elems out : List (List Char))
    (hout : stackOk rooted out) (hs : ∀ e ∈ elems, '/' ∉ e) :
    stackOk rooted (elems.foldl (cleanStep rooted) out) := by
  induction elems generalizing out with
  | nil => simpa using hout
  | cons e rest ih =>
    rw [List.foldl_cons]
    exact ih _ (cleanStep_ok rooted out e hout (hs e (List.mem_cons_self _ _)))
      (fun x hx => hs x (List.mem_cons_of_mem _ hx))

theorem stackOk_nil (rooted : Bool) : stackOk rooted [] :=
  ⟨[], 0, rfl, fun _ => rfl, by simp⟩

theorem cleanPath_normal (x : List Char) :
    ∃ (reals : List (List Char)) (k : Nat),
      (cleanPath x).elems = List.replicate k ['.', '.'] ++ reals ∧
        ((cleanPath x).rooted = true → k = 0) ∧ ∀ e ∈ reals, realElem e := by
  obtain ⟨reals, k, hout, hk, hreal⟩ :=
    foldl_cleanStep_ok (decide (x.head? = some '/')) (splitSlash x) [] (stackOk_nil _)
      (splitSlash_noSlash x)
  refine ⟨reals.reverse, k, ?_, hk, fun e he => hreal e (List.mem_reverse.mp he)⟩
  simp [cleanPath, hout]

theorem joinSlash_head (elems : List (List Char)) (hne : elems ≠ [])
    (h : ∀ e ∈ elems, e ≠ [] ∧ '/' ∉ e) : (joinSlash elems).head? ≠ some '/' := by
  cases elems with
  | nil => exact absurd rfl hne
  | cons e rest =>
    obtain ⟨he, hs⟩ := h e (List.mem_cons_self _ _)
    cases e with
    | nil => exact absurd rfl he
    | cons c cs =>
      simp only [List.mem_cons, not_or] at hs
      have hc : c ≠ '/' := fun hc => hs.1 hc.symm
      cases rest <;> simp [joinSlash, hc]

theorem realElem_dotdot_noSlash : '/' ∉ (['.', '.'] : List Char) := by decide

theorem cleanPath_render_normal (rooted : Bool) (reals : List (List Char)) (k : Nat)
    (hk : rooted = true → k = 0) (hreal : ∀ e ∈ reals, realElem e) :
    cleanPath (CleanPath.render ⟨rooted, List.replicate k ['.', '.'] ++ reals⟩) =
      ⟨rooted, List.replicate k ['.', '.'] ++ reals⟩ := by
  have hslash : ∀ e ∈ List.replicate k ['.', '.'] ++ reals, e ≠ [] ∧ '/' ∉ e := by
    intro e he
    rcases List.mem_append.mp he with he | he
    · rw [List.eq_of_mem_replicate he]
      exact ⟨by simp, realElem_dotdot_noSlash⟩
    · exact ⟨(hreal e he).1, (hreal e he).2.2.2⟩
  cases rooted with
  | true =>
    have hk0 : k = 0 := hk rfl
    subst hk0
    simp only [List.replicate_zero, List.nil_append] at hslash ⊢
    cases hr : reals with
    | nil => decide
    | cons e rest =>
      rw [← hr]
      have hne : reals ≠ [] := by rw [hr]; simp
      have hsplit := splitSlash_joinSlash reals hne (fun e he => (hslash e he).2)
      simp only [CleanPath.render, if_true, cleanPath, List.head?_cons, decide_True,
        splitSlash, hsplit, List.foldl_cons]
      have h0 : cleanStep true [] [] = [] := by simp [cleanStep]
      rw [h0, foldl_cleanStep_reals true reals [] hreal]
      simp
  | false =>
    by_cases hnil : List.replicate k ['.', '.'] ++ reals = []
    · rw [hnil]; decide
    · have hsplit := splitSlash_joinSlash _ hnil (fun e he => (hslash e he).2)
      have hhead := joinSlash_head _ hnil hslash
      have hfold : (List.replicate k ['.', '.'] ++ reals).foldl (cleanStep false) [] =
          reals.reverse ++ List.replicate k ['.', '.'] := by
        rw [List.foldl_append]
        have := foldl_cleanStep_dotdots k 0
        simp only [List.replicate_zero, Nat.zero_add] at this
        rw [this, foldl_cleanStep_reals false reals _ hreal]
      simp only [CleanPath.render, hnil, if_false, cleanPath, hsplit, hfold, hhead,
        decide_False, Bool.false_eq_true]
      simp

theorem cleanPath_idem (x : List Char) : cleanPath (cleanPath x).render = cleanPath x := by
  obtain ⟨reals, k, helems, hk, hreal⟩ := cleanPath_normal x
  have := cleanPath_render_normal (cleanPath x).rooted reals k hk hreal
  rw [← helems] at this
  exact this

theorem foldl_cleanStep_noDotdot (rooted : Bool) (elems out : List (List Char))
    (h : ['.', '.'] ∉ elems) :
    ∃ pushed : List (List Char),
      elems.foldl (cleanStep rooted) out = pushed ++ out ∧ ['.', '.'] ∉ pushed := by
  induction elems generalizing out with
  | nil => exact ⟨[], by simp, by simp⟩
  | cons e rest ih =>
    simp only [List.mem_cons, not_or] at h
    have he : e ≠ ['.', '.'] := fun hc => h.1 hc.symm
    rw [List.foldl_cons]
    by_cases h1 : e = []
    · simpa [cleanStep, h1] using ih out h.2
    by_cases h2 : e = ['.']
    · simpa [cleanStep, h2] using ih out h.2
    · have hstep : cleanStep rooted out e = e :: out := by
        simp [cleanStep, h1, h2, he]
      obtain ⟨pushed, hp, hd⟩ := ih (e :: out) h.2
      rw [hstep, hp]
      refine ⟨pushed ++ [e], by simp, ?_⟩
      simp only [List.mem_append, List.mem_singleton, not_or]
      exact ⟨hd, h.1⟩

/-- The target of an archive entry whose name has no `..` element lies under a
destination that is not the empty string. -/
theorem pathUnder_join (destination name : String) (hdest : destination ≠ "")
    (hname : ['.', '.'] ∉ splitSlash name.data) :
    pathUnder destination (filepathJoin [destination, name]) = true := by
  have hdata : destination.data ≠ [] := by
    intro h
    apply hdest
    cases destination
    simp only at h
    subst h; rfl
  have hjoin : filepathJoin [destination, name] =
      String.mk (cleanPath (destination.data ++ '/' :: name.data)).render := by
    simp [filepathJoin, hdest, stringsJoinSlash]
  have hrooted : (cleanPath (destination.data ++ '/' :: name.data)).rooted =
      (cleanPath destination.data).rooted := by
    cases hd : destination.data with
    | nil => exact absurd hd hdata
    | cons c cs => simp [cleanPath]
  obtain ⟨pushed, hp, hd⟩ := foldl_cleanStep_noDotdot
    (cleanPath destination.data).rooted (splitSlash name.data)
    ((splitSlash destination.data).foldl (cleanStep (cleanPath destination.data).rooted) [])
    hname
  have helems : (cleanPath (destination.data ++ '/' :: name.data)).elems =
      (cleanPath destination.data).elems ++ pushed.reverse := by
    have h1 : (cleanPath (destination.data ++ '/' :: name.data)).elems =
        ((splitSlash (destination.data ++ '/' :: name.data)).foldl
          (cleanStep (cleanPath (destination.data ++ '/' :: name.data)).rooted) []).reverse := rfl
    rw [h1, hrooted, splitSlash_append, List.foldl_append, hp, List.reverse_append]
    rfl
  rw [hjoin]
  simp only [pathUnder, cleanPath_idem, hrooted, helems, decide_True, Bool.true_and,
    List.drop_left, Bool.and_eq_true, Bool.not_eq_true']
  constructor
  · rw [List.isPrefixOf_iff_prefix]
    exact List.prefix_append _ _
  · simpa using hd

/-! ### Archive extraction -/

theorem extractEntries_events (w : World) (destination : String) (P : Event → Prop)
    (entries : List TarNext) (tr : List Event)
    (hP : ∀ flag name data, TarNext.header flag name data ∈ entries →
      P (.mkdirAll (filepathJoin [destination, name])) ∧
      P (.mkdirAll (filepathDir (filepathJoin [destination, name]))) ∧
      P (.create (filepathJoin [destination, name])) ∧
      P (.copy (filepathJoin [destination, name]))) :
    ∃ evs, (extractEntries w destination tr entries).1 = tr ++ evs ∧ ∀ e ∈ evs, P e := by
  induction entries generalizing tr with
  | nil => exact ⟨[], by simp [extractEntries], by simp⟩
  | cons item rest ih =>
    have hrest : ∀ flag name data, TarNext.header flag name data ∈ rest →
        P (.mkdirAll (filepathJoin [destination, name])) ∧
        P (.mkdirAll (filepathDir (filepathJoin [destination, name]))) ∧
        P (.create (filepathJoin [destination, name])) ∧
        P (.copy (filepathJoin [destination, name])) :=
      fun flag name data h => hP flag name data (List.mem_cons_of_mem _ h)
    cases item with
    | failure err => exact ⟨[], by simp [extractEntries], by simp⟩
    | header flag name data =>
      obtain ⟨p1, p2, p3, p4⟩ := hP flag name data (List.mem_cons_self _ _)
      simp only [extractEntries]
      by_cases hd : flag = TypeDir
      · simp only [hd, if_true]
        cases hf : w.fault tr (.mkdirAll (filepathJoin [destination, name])) with
        | some err =>
          exact ⟨[.mkdirAll (filepathJoin [destination, name])], rfl, by simpa using p1⟩
        | none =>
          obtain ⟨evs, h1, h2⟩ :=
            ih (tr ++ [.mkdirAll (filepathJoin [destination, name])]) hrest
          refine ⟨.mkdirAll (filepathJoin [destination, name]) :: evs, ?_, ?_⟩
          · simp only [h1]; simp
          · intro e he
            rcases List.mem_cons.mp he with he | he
            · subst he; exact p1
            · exact h2 e he
      · simp only [hd, if_false]
        by_cases hr : flag = TypeReg
        · simp only [hr, if_true]
          cases hf1 : w.fault tr (.mkdirAll (filepathDir (filepathJoin [destination, name]))) with
          | some err =>
            exact ⟨[.mkdirAll (filepathDir (filepathJoin [destination, name]))], rfl,
              by simpa using p2⟩
          | none =>
            simp only []
            cases hf2 : w.fault
                (tr ++ [.mkdirAll (filepathDir (filepathJoin [destination, name]))])
                (.create (filepathJoin [destination, name])) with
            | some err =>
              refine ⟨[.mkdirAll (filepathDir (filepathJoin [destination, name])),
                .create (filepathJoin [destination, name])], by simp, ?_⟩
              intro e he
              simp only [List.mem_cons, List.mem_singleton, List.not_mem_nil, or_false] at he
              rcases he with he | he
              · subst he; exact p2
              · subst he; exact p3
            | none =>
              simp only []
              cases hf3 : w.fault
                  (tr ++ [.mkdirAll (filepathDir (filepathJoin [destination, name]))] ++
                    [.create (filepathJoin [destination, name])])
                  (.copy (filepathJoin [destination, name])) with
              | some err =>
                refine ⟨[.mkdirAll (filepathDir (filepathJoin [destination, name])),
                  .create (filepathJoin [destination, name]),
                  .copy (filepathJoin [destination, name])], by simp, ?_⟩
                intro e he
                simp only [List.mem_cons, List.mem_singleton, List.not_mem_nil, or_false] at he
                rcases he with he | he | he
                · subst he; exact p2
                · subst he; exact p3
                · subst he; exact p4
              | none =>
                obtain ⟨evs, h1, h2⟩ :=
                  ih (tr ++ [.mkdirAll (filepathDir (filepathJoin [destination, name]))] ++
                    [.create (filepathJoin [destination, name])] ++
                    [.copy (filepathJoin [destination, name])]) hrest
                refine ⟨.mkdirAll (filepathDir (filepathJoin [destination, name])) ::
                  .create (filepathJoin [destination, name]) ::
                  .copy (filepathJoin [destination, name]) :: evs, ?_, ?_⟩
                · simp only [h1]; simp
                · intro e he
                  simp only [List.mem_cons] at he
                  rcases he with he | he | he | he
                  · subst he; exact p2
                  · subst he; exact p3
                  · subst he; exact p4
                  · exact h2 e he
        · simp only [hr, if_false]
          exact ⟨[], by simp, by simp⟩

theorem extractTarGz_events (w : World) (tr : List Event) (tarGzFile destination : String)
    (P : Event → Prop) (hopen : P (.openArchive tarGzFile))
    (hP : ∀ entries flag name data, w.archive tr tarGzFile = .ok entries →
      TarNext.header flag name data ∈ entries →
      P (.mkdirAll (filepathJoin [destination, name])) ∧
      P (.mkdirAll (filepathDir (filepathJoin [destination, name]))) ∧
      P (.create (filepathJoin [destination, name])) ∧
      P (.copy (filepathJoin [destination, name]))) :
    ∃ evs, (extractTarGz w tr tarGzFile destination).1 = tr ++ evs ∧ ∀ e ∈ evs, P e := by
  unfold extractTarGz
  cases ha : w.archive tr tarGzFile with
  | error err => exact ⟨[.openArchive tarGzFile], rfl, by simpa using hopen⟩
  | ok entries =>
    obtain ⟨evs, h1, h2⟩ := extractEntries_events w destination P entries
      (tr ++ [.openArchive tarGzFile]) (fun flag name data h => hP entries flag name data ha h)
    refine ⟨.openArchive tarGzFile :: evs, ?_, ?_⟩
    · simp only [h1]; simp
    · intro e he
      rcases List.mem_cons.mp he with he | he
      · subst he; exact hopen
      · exact h2 e he

/-- C2, refuted as stated: with the destination `/app/run-1` and an archive whose
one entry is a regular file named `../../etc/passwd`, `extractTarGz` returns no
error, makes the directory `/etc` and creates and writes the file `/etc/passwd`,
which does not lie under `/app/run-1`. -/
theorem extractTarGz_traversal :
    extractTarGz traversalWorld [] "/app/run-1/config.tar.gz" "/app/run-1" =
      ([.openArchive "/app/run-1/config.tar.gz", .mkdirAll "/etc", .create "/etc/passwd",
        .copy "/etc/passwd"], .ok ()) ∧
    pathUnder "/app/run-1" "/etc/passwd" = false := by
  constructor
  · rfl
  · decide

/-- C2, amended: `extractTarGz` does not reject any entry for its name.  With a
destination that is not the empty string and an archive in which no entry name has
a `..` element, every file it creates or writes and every directory it makes for a
directory entry lies under the destination; the only other directory it makes is
the one that holds such a file. -/
theorem extractTarGz_under (w : World) (tr : List Event) (tarGzFile destination : String)
    (hdest : destination ≠ "")
    (hnames : ∀ entries flag name data, w.archive tr tarGzFile = .ok entries →
      TarNext.header flag name data ∈ entries → ['.', '.'] ∉ splitSlash name.data) :
    ∃ evs, (extractTarGz w tr tarGzFile destination).1 = tr ++ evs ∧
      ∀ e ∈ evs,
        (∀ p, e = .create p → pathUnder destination p = true) ∧
        (∀ p, e = .copy p → pathUnder destination p = true) ∧
        (∀ p, e = .mkdirAll p → pathUnder destination p = true ∨
          ∃ target, pathUnder destination target = true ∧ p = filepathDir target) := by
  apply extractTarGz_events w tr tarGzFile destination
  · refine ⟨?_, ?_, ?_⟩ <;> intro p hp <;> cases hp
  · intro entries flag name data ha hmem
    have hu := pathUnder_join destination name hdest (hnames entries flag name data ha hmem)
    refine ⟨⟨?_, ?_, ?_⟩, ⟨?_, ?_, ?_⟩, ⟨?_, ?_, ?_⟩, ⟨?_, ?_, ?_⟩⟩ <;> intro p hp <;>
      cases hp
    · exact Or.inl hu
    · exact Or.inr ⟨_, hu, rfl⟩
    · exact hu
    · exact hu

/-- Witness of C2, amended: the destination `/app/run-1` and an archive with the
directory `tf` and the regular file `tf/main.tf`. -/
theorem extractTarGz_under_witness :
    ("/app/run-1" : String) ≠ "" ∧
    (∀ entries flag name data,
      plainArchiveWorld.archive [] "/app/run-1/config.tar.gz" = .ok entries →
      TarNext.header flag name data ∈ entries → ['.', '.'] ∉ splitSlash name.data) ∧
    ∃ evs, (extractTarGz plainArchiveWorld [] "/app/run-1/config.tar.gz" "/app/run-1").1 =
        [] ++ evs ∧
      ∀ e ∈ evs,
        (∀ p, e = .create p → pathUnder "/app/run-1" p = true) ∧
        (∀ p, e = .copy p → pathUnder "/app/run-1" p = true) ∧
        (∀ p, e = .mkdirAll p → pathUnder "/app/run-1" p = true ∨
          ∃ target, pathUnder "/app/run-1" target = true ∧ p = filepathDir target) := by
  have hnames : ∀ entries flag name data,
      plainArchiveWorld.archive [] "/app/run-1/config.tar.gz" = .ok entries →
      TarNext.header flag name data ∈ entries → ['.', '.'] ∉ splitSlash name.data := by
    intro entries flag name data ha hmem
    simp only [plainArchiveWorld, Except.ok.injEq] at ha
    subst ha
    simp only [List.mem_cons, TarNext.header.injEq, List.mem_singleton, List.not_mem_nil,
      or_false] at hmem
    rcases hmem with ⟨_, h, _⟩ | ⟨_, h, _⟩ <;> subst h <;> decide
  exact ⟨by decide, hnames,
    extractTarGz_under plainArchiveWorld [] "/app/run-1/config.tar.gz" "/app/run-1"
      (by decide) hnames⟩

/-! ### The steps of the pipeline -/

theorem Event.not_callback_of_isFetch (e : Event) (h : e.isFetch = true) :
    e.isCallback = false ∧ e.isGraphStep = false ∧ e.isScanStep = false := by
  cases e <;> simp_all [Event.isFetch, Event.isCallback, Event.isGraphStep, Event.isScanStep]

theorem extractEntries_unsupported (w : World) (destination : String)
    (entries : List TarNext) (tr : List Event)
    (h : ∃ flag name data, TarNext.header flag name data ∈ entries ∧
      flag ≠ TypeDir ∧ flag ≠ TypeReg) :
    ∃ err, (extractEntries w destination tr entries).2 = .error err := by
  induction entries generalizing tr with
  | nil =>
    obtain ⟨flag, name, data, hmem, _⟩ := h
    simp at hmem
  | cons item rest ih =>
    cases item with
    | failure err => exact ⟨err, by simp [extractEntries]⟩
    | header flag name data =>
      have hrest : ¬ (flag ≠ TypeDir ∧ flag ≠ TypeReg) →
          ∃ flag name data, TarNext.header flag name data ∈ rest ∧
            flag ≠ TypeDir ∧ flag ≠ TypeReg := by
        intro hsup
        obtain ⟨f, n, d, hmem, hf⟩ := h
        rcases List.mem_cons.mp hmem with heq | hmem
        · simp only [TarNext.header.injEq] at heq
          obtain ⟨rfl, _, _⟩ := heq
          exact absurd hf hsup
        · exact ⟨f, n, d, hmem, hf⟩
      simp only [extractEntries]
      by_cases hd : flag = TypeDir
      · simp only [hd, if_true]
        cases hf : w.fault tr (.mkdirAll (filepathJoin [destination, name])) with
        | some err => exact ⟨err, rfl⟩
        | none => exact ih _ (hrest (by simp [hd]))
      · simp only [hd, if_false]
        by_cases hr : flag = TypeReg
        · simp only [hr, if_true]
          cases hf1 : w.fault tr (.mkdirAll (filepathDir (filepathJoin [destination, name]))) with
          | some err => exact ⟨err, rfl⟩
          | none =>
            simp only []
            cases hf2 : w.fault
                (tr ++ [.mkdirAll (filepathDir (filepathJoin [destination, name]))])
                (.create (filepathJoin [destination, name])) with
            | some err => exact ⟨err, rfl⟩
            | none =>
              simp only []
              cases hf3 : w.fault
                  (tr ++ [.mkdirAll (filepathDir (filepathJoin [destination, name]))] ++
                    [.create (filepathJoin [destination, name])])
                  (.copy (filepathJoin [destination, name])) with
              | some err => exact ⟨err, rfl⟩
              | none => exact ih _ (hrest (by simp [hr]))
        · simp only [hr, if_false]
          exact ⟨_, rfl⟩

theorem extractTarGz_unsupported (w : World) (tr : List Event)
    (tarGzFile destination : String)
    (h : ∀ entries, w.archive tr tarGzFile = .ok entries →
      ∃ flag name data, TarNext.header flag name data ∈ entries ∧
        flag ≠ TypeDir ∧ flag ≠ TypeReg) :
    ∃ err, (extractTarGz w tr tarGzFile destination).2 = .error err := by
  unfold extractTarGz
  cases ha : w.archive tr tarGzFile with
  | error err => exact ⟨err, rfl⟩
  | ok entries => exact extractEntries_unsupported w destination entries _ (h entries ha)

theorem downloadConfigVersion_events (w : World) (tr : List Event)
    (url token runID : String) :
    ∃ evs, (downloadConfigVersion w tr url token runID).1 = tr ++ evs ∧
      ∀ e ∈ evs, e.isFetch = true := by
  unfold downloadConfigVersion
  cases hn : w.newRequest url with
  | some err => exact ⟨[], by simp, by simp⟩
  | none =>
    simp only []
    cases hresp : w.response tr (.httpDo "GET" url token "") with
    | error err => exact ⟨[.httpDo "GET" url token ""], rfl, by simp [Event.isFetch]⟩
    | ok answer =>
      obtain ⟨statusCode, body⟩ := answer
      simp only []
      by_cases hs : statusCode = 200
      · simp only [hs, ne_eq, not_true_eq_false, if_false]
        cases hf1 : w.fault (tr ++ [.httpDo "GET" url token ""])
            (.mkdirAll (filepathJoin [BaseDir, runID])) with
        | some err =>
          exact ⟨[.httpDo "GET" url token "", .mkdirAll (filepathJoin [BaseDir, runID])],
            by simp, by simp [Event.isFetch]⟩
        | none =>
          simp only []
          cases hf2 : w.fault
              (tr ++ [.httpDo "GET" url token ""] ++ [.mkdirAll (filepathJoin [BaseDir, runID])])
              (.create (filepathJoin [filepathJoin [BaseDir, runID], "config.tar.gz"])) with
          | some err =>
            exact ⟨[.httpDo "GET" url token "", .mkdirAll (filepathJoin [BaseDir, runID]),
              .create (filepathJoin [filepathJoin [BaseDir, runID], "config.tar.gz"])],
              by simp, by simp [Event.isFetch]⟩
          | none =>
            simp only []
            cases hf3 : w.fault
                (tr ++ [.httpDo "GET" url token ""] ++
                  [.mkdirAll (filepathJoin [BaseDir, runID])] ++
                  [.create (filepathJoin [filepathJoin [BaseDir, runID], "config.tar.gz"])])
                (.copy (filepathJoin [filepathJoin [BaseDir, runID], "config.tar.gz"])) with
            | some err =>
              exact ⟨[.httpDo "GET" url token "", .mkdirAll (filepathJoin [BaseDir, runID]),
                .create (filepathJoin [filepathJoin [BaseDir, runID], "config.tar.gz"]),
                .copy (filepathJoin [filepathJoin [BaseDir, runID], "config.tar.gz"])],
                by simp, by simp [Event.isFetch]⟩
            | none =>
              simp only []
              obtain ⟨evs, h1, h2⟩ := extractTarGz_events w
                (tr ++ [.httpDo "GET" url token ""] ++
                  [.mkdirAll (filepathJoin [BaseDir, runID])] ++
                  [.create (filepathJoin [filepathJoin [BaseDir, runID], "config.tar.gz"])] ++
                  [.copy (filepathJoin [filepathJoin [BaseDir, runID], "config.tar.gz"])])
                (filepathJoin [filepathJoin [BaseDir, runID], "config.tar.gz"])
                (filepathJoin [BaseDir, runID]) (fun e => e.isFetch = true) rfl
                (fun _ _ _ _ _ _ => ⟨rfl, rfl, rfl, rfl⟩)
              refine ⟨.httpDo "GET" url token "" :: .mkdirAll (filepathJoin [BaseDir, runID]) ::
                .create (filepathJoin [filepathJoin [BaseDir, runID], "config.tar.gz"]) ::
                .copy (filepathJoin [filepathJoin [BaseDir, runID], "config.tar.gz"]) :: evs,
                ?_, ?_⟩
              · rw [h1]; simp
              · intro e he
                simp only [List.mem_cons] at he
                rcases he with he | he | he | he | he
                · subst he; rfl
                · subst he; rfl
                · subst he; rfl
                · subst he; rfl
                · exact h2 e he
      · simp only [hs, ne_eq, not_false_eq_true, if_true]
        exact ⟨[.httpDo "GET" url token ""], rfl, by simp [Event.isFetch]⟩

theorem downloadConfigVersion_status (w : World) (tr : List Event)
    (url token runID : String) (statusCode : Nat) (body : List Byte)
    (hresp : w.response tr (.httpDo "GET" url token "") = .ok (statusCode, body))
    (hs : statusCode ≠ 200) :
    ∃ err, (downloadConfigVersion w tr url token runID).2 = .error err := by
  unfold downloadConfigVersion
  cases hn : w.newRequest url with
  | some err => exact ⟨err, rfl⟩
  | none => simp only [hresp, hs, ne_eq, not_false_eq_true, if_true]; exact ⟨_, rfl⟩

theorem downloadConfigVersion_unsupported (w : World) (tr : List Event)
    (url token runID : String)
    (h : ∀ tr1 file entries, w.archive tr1 file = .ok entries →
      ∃ flag name data, TarNext.header flag name data ∈ entries ∧
        flag ≠ TypeDir ∧ flag ≠ TypeReg) :
    ∃ err, (downloadConfigVersion w tr url token runID).2 = .error err := by
  unfold downloadConfigVersion
  cases hn : w.newRequest url with
  | some err => exact ⟨err, rfl⟩
  | none =>
    simp only []
    cases hresp : w.response tr (.httpDo "GET" url token "") with
    | error err => exact ⟨err, rfl⟩
    | ok answer =>
      obtain ⟨statusCode, body⟩ := answer
      simp only []
      by_cases hs : statusCode = 200
      · simp only [hs, ne_eq, not_true_eq_false, if_false]
        cases hf1 : w.fault (tr ++ [.httpDo "GET" url token ""])
            (.mkdirAll (filepathJoin [BaseDir, runID])) with
        | some err => exact ⟨err, rfl⟩
        | none =>
          simp only []
          cases hf2 : w.fault
              (tr ++ [.httpDo "GET" url token ""] ++ [.mkdirAll (filepathJoin [BaseDir, runID])])
              (.create (filepathJoin [filepathJoin [BaseDir, runID], "config.tar.gz"])) with
          | some err => exact ⟨err, rfl⟩
          | none =>
            simp only []
            cases hf3 : w.fault
                (tr ++ [.httpDo "GET" url token ""] ++
                  [.mkdirAll (filepathJoin [BaseDir, runID])] ++
                  [.create (filepathJoin [filepathJoin [BaseDir, runID], "config.tar.gz"])])
                (.copy (filepathJoin [filepathJoin [BaseDir, runID], "config.tar.gz"])) with
            | some err => exact ⟨err, rfl⟩
            | none => exact extractTarGz_unsupported w _ _ _ (fun entries ha => h _ _ entries ha)
      · simp only [hs, ne_eq, not_false_eq_true, if_true]
        exact ⟨_, rfl⟩

theorem generateTerraformGraph_events (w : World) (tr : List Event)
    (runDir outputFile : String) :
    ∃ evs, (generateTerraformGraph w tr runDir outputFile).1 = tr ++ evs ∧
      ∀ e ∈ evs, e.isGraphStep = true ∧ e.isCallback = false := by
  unfold generateTerraformGraph
  simp only []
  cases hne : w.notExist tr (filepathJoin [runDir, "tf", "demo_server"])
  · simp only [Bool.false_eq_true, if_false]
    cases hf1 : w.fault (tr ++ [.stat (filepathJoin [runDir, "tf", "demo_server"])])
        (.chdir (filepathJoin [runDir, "tf", "demo_server"])) with
    | some err =>
      exact ⟨[.stat (filepathJoin [runDir, "tf", "demo_server"]),
            .chdir (filepathJoin [runDir, "tf", "demo_server"])],
        by simp, by simp [Event.isGraphStep, Event.isCallback]⟩
    | none =>
      simp only []
      cases hf2 : w.fault
          (tr ++ [.stat (filepathJoin [runDir, "tf", "demo_server"])] ++
            [.chdir (filepathJoin [runDir, "tf", "demo_server"])])
          (.exec (filepathJoin [runDir, "tf", "demo_server"]) ["terraform", "init"]) with
      | some err =>
        exact ⟨[.stat (filepathJoin [runDir, "tf", "demo_server"]),
            .chdir (filepathJoin [runDir, "tf", "demo_server"]),
            .exec (filepathJoin [runDir, "tf", "demo_server"]) ["terraform", "init"]],
          by simp, by simp [Event.isGraphStep, Event.isCallback]⟩
      | none =>
        simp only []
        cases hf3 : w.fault
            (tr ++ [.stat (filepathJoin [runDir, "tf", "demo_server"])] ++
              [.chdir (filepathJoin [runDir, "tf", "demo_server"])] ++
              [.exec (filepathJoin [runDir, "tf", "demo_server"]) ["terraform", "init"]])
            (.exec (filepathJoin [runDir, "tf", "demo_server"]) ["terraform", "graph"]) with
        | some err =>
          exact ⟨[.stat (filepathJoin [runDir, "tf", "demo_server"]),
            .chdir (filepathJoin [runDir, "tf", "demo_server"]),
            .exec (filepathJoin [runDir, "tf", "demo_server"]) ["terraform", "init"],
            .exec (filepathJoin [runDir, "tf", "demo_server"]) ["terraform", "graph"]],
            by simp, by simp [Event.isGraphStep, Event.isCallback]⟩
        | none =>
          simp only []
          cases hf4 : w.fault
              (tr ++ [.stat (filepathJoin [runDir, "tf", "demo_server"])] ++
                [.chdir (filepathJoin [runDir, "tf", "demo_server"])] ++
                [.exec (filepathJoin [runDir, "tf", "demo_server"]) ["terraform", "init"]] ++
                [.exec (filepathJoin [runDir, "tf", "demo_server"]) ["terraform", "graph"]])
              (.exec (filepathJoin [runDir, "tf", "demo_server"]) ["dot", "-Tpng", "-o", outputFile]) with
          | some err =>
            exact ⟨[.stat (filepathJoin [runDir, "tf", "demo_server"]),
            .chdir (filepathJoin [runDir, "tf", "demo_server"]),
            .exec (filepathJoin [runDir, "tf", "demo_server"]) ["terraform", "init"],
            .exec (filepathJoin [runDir, "tf", "demo_server"]) ["terraform", "graph"],
            .exec (filepathJoin [runDir, "tf", "demo_server"]) ["dot", "-Tpng", "-o", outputFile]],
              by simp, by simp [Event.isGraphStep, Event.isCallback]⟩
          | none =>
            exact ⟨[.stat (filepathJoin [runDir, "tf", "demo_server"]),
            .chdir (filepathJoin [runDir, "tf", "demo_server"]),
            .exec (filepathJoin [runDir, "tf", "demo_server"]) ["terraform", "init"],
            .exec (filepathJoin [runDir, "tf", "demo_server"]) ["terraform", "graph"],
            .exec (filepathJoin [runDir, "tf", "demo_server"]) ["dot", "-Tpng", "-o", outputFile]],
              by simp, by simp [Event.isGraphStep, Event.isCallback]⟩
  · simp only [if_true]
    exact ⟨[.stat (filepathJoin [runDir, "tf", "demo_server"])], rfl,
      by simp [Event.isGraphStep, Event.isCallback]⟩

theorem runRegexOnFolderErr_events (w : World) (tr : List Event) (baseDir : String)
    (patterns : List String) :
    ∃ evs, (runRegexOnFolderErr w tr baseDir patterns).1 = tr ++ evs ∧
      ∀ e ∈ evs, e.isScanStep = true ∧ e.isCallback = false := by
  unfold runRegexOnFolderErr
  simp only []
  cases hne : w.notExist tr (filepathJoin [baseDir, "tf", "demo_server"])
  · simp only [Bool.false_eq_true, if_false]
    exact ⟨[.stat (filepathJoin [baseDir, "tf", "demo_server"]),
      .walk (filepathJoin [baseDir, "tf", "demo_server"])],
      by simp, by simp [Event.isScanStep, Event.isCallback]⟩
  · simp only [if_true]
    exact ⟨[.stat (filepathJoin [baseDir, "tf", "demo_server"])], rfl,
      by simp [Event.isScanStep, Event.isCallback]⟩

theorem sendPatchRequest_sent (w : World) (tr : List Event) (url payload authToken : String)
    (h : w.newRequest url = none) :
    (sendPatchRequest w tr url payload authToken).1 =
      tr ++ [.httpDo "PATCH" url authToken payload] := by
  unfold sendPatchRequest
  simp only [h]
  cases hresp : w.response tr (.httpDo "PATCH" url authToken payload) with
  | error err => rfl
  | ok answer =>
    obtain ⟨statusCode, body⟩ := answer
    by_cases hs : statusCode = 200 <;> simp [hs]

theorem processJob_of_fetch_error (w : World) (tr : List Event) (payload : PrePlanPayload)
    (err : String) (h : (fetchOf w tr payload).2 = .error err) :
    processJob w tr payload = ((fetchOf w tr payload).1, .abandoned) := by
  unfold fetchOf at h ⊢
  unfold processJob
  cases hd : downloadConfigVersion w tr payload.ConfigurationVersionDownloadURL
      payload.AccessToken payload.RunID with
  | mk tr1 res =>
    rw [hd] at h
    simp only at h
    subst h
    rfl

theorem processJob_of_lines_error (w : World) (tr : List Event) (payload : PrePlanPayload)
    (err : String) (hfetch : (fetchOf w tr payload).2 = .ok ())
    (hlines : w.lines (graphOf w tr payload).1 patternsFile = .error err) :
    processJob w tr payload =
      ((graphOf w tr payload).1 ++ [.readLines patternsFile], .abandoned) := by
  unfold graphOf runDirOf patternsFile at hlines
  unfold graphOf runDirOf patternsFile
  unfold fetchOf at hfetch hlines ⊢
  unfold processJob
  cases hd : downloadConfigVersion w tr payload.ConfigurationVersionDownloadURL
      payload.AccessToken payload.RunID with
  | mk tr1 res =>
    rw [hd] at hfetch hlines
    simp only at hfetch hlines
    subst hfetch
    simp only [readRegexPatterns, hlines]

theorem processJob_of_lines_ok (w : World) (tr : List Event) (payload : PrePlanPayload)
    (patterns : List String) (hfetch : (fetchOf w tr payload).2 = .ok ())
    (hlines : w.lines (graphOf w tr payload).1 patternsFile = .ok patterns) :
    processJob w tr payload =
      ((sendPatchRequest w (scanOf w tr payload patterns).1 payload.TaskResultCallbackURL
          (w.encode (verdict w (scanOf w tr payload patterns).1
            (scanOf w tr payload patterns).2.1 none payload.RunID))
          payload.AccessToken).1 ++ [.sleep], .done) := by
  unfold scanOf
  unfold graphOf runDirOf patternsFile at hlines
  unfold graphOf runDirOf patternsFile
  unfold fetchOf at hfetch hlines ⊢
  unfold processJob
  cases hd : downloadConfigVersion w tr payload.ConfigurationVersionDownloadURL
      payload.AccessToken payload.RunID with
  | mk tr1 res =>
    rw [hd] at hfetch hlines
    simp only at hfetch hlines
    subst hfetch
    simp only [readRegexPatterns, hlines, jsonMarshal, runRegexOnFolder]

theorem scanOf_events (w : World) (tr : List Event) (payload : PrePlanPayload)
    (patterns : List String) :
    ∃ evs, (scanOf w tr payload patterns).1 = tr ++ evs ∧
      Event.readLines patternsFile ∈ evs ∧ ∀ e ∈ evs, e.isCallback = false := by
  obtain ⟨devs, hd1, hd2⟩ := downloadConfigVersion_events w tr
    payload.ConfigurationVersionDownloadURL payload.AccessToken payload.RunID
  obtain ⟨gevs, hg1, hg2⟩ := generateTerraformGraph_events w (fetchOf w tr payload).1
    (runDirOf payload) (filepathJoin [runDirOf payload, "graph.png"])
  obtain ⟨sevs, hs1, hs2⟩ := runRegexOnFolderErr_events w
    ((graphOf w tr payload).1 ++ [.readLines patternsFile]) (runDirOf payload) patterns
  refine ⟨devs ++ gevs ++ [.readLines patternsFile] ++ sevs, ?_, by simp, ?_⟩
  · unfold scanOf
    rw [hs1]
    unfold graphOf
    rw [hg1]
    unfold fetchOf
    rw [hd1]
    simp
  · intro e he
    simp only [List.mem_append, List.mem_singleton] at he
    rcases he with ((he | he) | he) | he
    · exact (Event.not_callback_of_isFetch e (hd2 e he)).1
    · exact (hg2 e he).2
    · subst he; rfl
    · exact (hs2 e he).2

/-! ### The job pipeline -/

/-- C5: if the download step of a job returns an error, the body of the loop ends at
its first `continue`: the job is abandoned, the events of the job are those of the
download step alone (none is a callback, an event of the graph step or an event of
the scan step), and `processJobs` goes on with the next job.  The download step
returns an error whenever the answer to the download request has a status other
than 200 (so for every status outside 200-299, 403 among them), and whenever the
archive holds an entry that is neither a directory nor a regular file. -/
theorem processJobs_fetch_failure (w : World) (tr : List Event) (payload : PrePlanPayload)
    (rest : List PrePlanPayload) :
    (∀ err, (fetchOf w tr payload).2 = .error err →
      (processJob w tr payload).2 = .abandoned ∧
      (∃ evs, (processJob w tr payload).1 = tr ++ evs ∧
        ∀ e ∈ evs, e.isFetch = true ∧ e.isCallback = false ∧ e.isGraphStep = false ∧
          e.isScanStep = false) ∧
      processJobs w tr (payload :: rest) = processJobs w (fetchOf w tr payload).1 rest) ∧
    (∀ statusCode body,
      w.response tr (.httpDo "GET" payload.ConfigurationVersionDownloadURL
        payload.AccessToken "") = .ok (statusCode, body) →
      statusCode ≠ 200 → ∃ err, (fetchOf w tr payload).2 = .error err) ∧
    ((∀ tr1 file entries, w.archive tr1 file = .ok entries →
        ∃ flag name data, TarNext.header flag name data ∈ entries ∧
          flag ≠ TypeDir ∧ flag ≠ TypeReg) →
      ∃ err, (fetchOf w tr payload).2 = .error err) := by
  refine ⟨?_, ?_, ?_⟩
  · intro err herr
    have hjob := processJob_of_fetch_error w tr payload err herr
    refine ⟨by rw [hjob], ?_, ?_⟩
    · obtain ⟨evs, h1, h2⟩ := downloadConfigVersion_events w tr
        payload.ConfigurationVersionDownloadURL payload.AccessToken payload.RunID
      refine ⟨evs, ?_, fun e he => ⟨h2 e he, Event.not_callback_of_isFetch e (h2 e he)⟩⟩
      rw [hjob]
      exact h1
    · simp only [processJobs, hjob]
  · intro statusCode body hresp hs
    exact downloadConfigVersion_status w tr _ _ _ statusCode body hresp hs
  · intro h
    exact downloadConfigVersion_unsupported w tr _ _ _ h

/-- Witness of C5: the download request of the job `run-1` is answered with status
403; the job is abandoned after the request, its one event. -/
theorem processJobs_fetch_failure_witness :
    (fetchOf forbiddenWorld [] demoJob).2 =
      .error "request failed with status code: 403" ∧
    (processJob forbiddenWorld [] demoJob).2 = .abandoned ∧
    (processJob forbiddenWorld [] demoJob).1 =
      [.httpDo "GET" "https://tfc.example/download" "token" ""] ∧
    (∃ evs, (processJob forbiddenWorld [] demoJob).1 = [] ++ evs ∧
      ∀ e ∈ evs, e.isFetch = true ∧ e.isCallback = false ∧ e.isGraphStep = false ∧
        e.isScanStep = false) :=
  ⟨rfl, ((processJobs_fetch_failure forbiddenWorld [] demoJob []).1 _ rfl).1, rfl,
    ((processJobs_fetch_failure forbiddenWorld [] demoJob []).1 _ rfl).2.1⟩

/-- C6, refuted as stated: the download of the job `run-1` succeeds, the pattern
file is read, and the walk stops on a file that cannot be read; the job is not
abandoned: the body of the loop runs to its end and the callback with the verdict
`passed` is issued. -/
theorem processJob_walk_error_reports :
    (fetchOf walkErrorWorld [] demoJob).2 = .ok () ∧
    walkErrorWorld.lines (graphOf walkErrorWorld [] demoJob).1 patternsFile = .ok ["AKIA"] ∧
    (scanOf walkErrorWorld [] demoJob ["AKIA"]).2.2 = some "permission denied" ∧
    (processJob walkErrorWorld [] demoJob).2 = .done ∧
    Event.httpDo "PATCH" "https://tfc.example/callback" "token" "passed" ∈
      (processJob walkErrorWorld [] demoJob).1 := by
  refine ⟨rfl, rfl, rfl, rfl, ?_⟩
  decide

/-- C6, amended: for a job whose download succeeded, if the pattern file cannot be
read the job is abandoned and no callback is among its events.  If the pattern file
can be read, then whatever the error of the walk (none, or the one that stopped it),
the body of the loop runs to its end: `sendPatchRequest` is called with the verdict
on the counts the scan returned, and when `http.NewRequest` accepts the callback URL
the callback is among the events of the job. -/
theorem processJob_scan_failure (w : World) (tr : List Event) (payload : PrePlanPayload)
    (hfetch : (fetchOf w tr payload).2 = .ok ()) :
    (∀ err, w.lines (graphOf w tr payload).1 patternsFile = .error err →
      (processJob w tr payload).2 = .abandoned ∧
      ∃ evs, (processJob w tr payload).1 = tr ++ evs ∧ ∀ e ∈ evs, e.isCallback = false) ∧
    (∀ patterns, w.lines (graphOf w tr payload).1 patternsFile = .ok patterns →
      ∀ walkErr, (scanOf w tr payload patterns).2.2 = walkErr →
      (processJob w tr payload).2 = .done ∧
      (processJob w tr payload).1 =
        (sendPatchRequest w (scanOf w tr payload patterns).1 payload.TaskResultCallbackURL
          (w.encode (verdict w (scanOf w tr payload patterns).1
            (scanOf w tr payload patterns).2.1 none payload.RunID))
          payload.AccessToken).1 ++ [.sleep] ∧
      (w.newRequest payload.TaskResultCallbackURL = none →
        callbackOf w tr payload patterns ∈ (processJob w tr payload).1)) := by
  constructor
  · intro err hlines
    have hjob := processJob_of_lines_error w tr payload err hfetch hlines
    refine ⟨by rw [hjob], ?_⟩
    obtain ⟨devs, hd1, hd2⟩ := downloadConfigVersion_events w tr
      payload.ConfigurationVersionDownloadURL payload.AccessToken payload.RunID
    obtain ⟨gevs, hg1, hg2⟩ := generateTerraformGraph_events w (fetchOf w tr payload).1
      (runDirOf payload) (filepathJoin [runDirOf payload, "graph.png"])
    refine ⟨devs ++ gevs ++ [.readLines patternsFile], ?_, ?_⟩
    · rw [hjob]
      show (graphOf w tr payload).1 ++ [Event.readLines patternsFile] = _
      unfold graphOf
      rw [hg1]
      unfold fetchOf
      rw [hd1]
      simp
    · intro e he
      simp only [List.mem_append, List.mem_singleton] at he
      rcases he with (he | he) | he
      · exact (Event.not_callback_of_isFetch e (hd2 e he)).1
      · exact (hg2 e he).2
      · subst he; rfl
  · intro patterns hlines walkErr _
    have hjob := processJob_of_lines_ok w tr payload patterns hfetch hlines
    refine ⟨by rw [hjob], by rw [hjob], ?_⟩
    intro hurl
    rw [hjob]
    simp only [sendPatchRequest_sent w _ _ _ _ hurl, callbackOf]
    simp

/-- Witness of C6, amended: the job `run-1` in a world where nothing fails. -/
theorem processJob_scan_failure_witness :
    (fetchOf quietWorld [] demoJob).2 = .ok () ∧
    (processJob quietWorld [] demoJob).2 = .done ∧
    callbackOf quietWorld [] demoJob [] ∈ (processJob quietWorld [] demoJob).1 :=
  ⟨rfl,
    ((processJob_scan_failure quietWorld [] demoJob rfl).2 [] rfl none rfl).1,
    ((processJob_scan_failure quietWorld [] demoJob rfl).2 [] rfl none rfl).2.2 rfl⟩

/-- C7, refuted as stated: the download of the job `run-1` succeeds and
`generateTerraformGraph` returns an error, and no callback is among the events of
the job, once because the pattern file cannot be read (the job is abandoned) and
once because `http.NewRequest` rejects the callback URL. -/
theorem processJob_graph_failure_no_callback :
    ((fetchOf noPatternsWorld [] demoJob).2 = .ok () ∧
      (graphOf noPatternsWorld [] demoJob).2 =
        .error "tf/demo_server directory not found in /app/run-1" ∧
      (processJob noPatternsWorld [] demoJob).2 = .abandoned ∧
      ∀ e ∈ (processJob noPatternsWorld [] demoJob).1, e.isCallback = false) ∧
    ((fetchOf badURLWorld [] { demoJob with TaskResultCallbackURL := "%zz" }).2 = .ok () ∧
      (graphOf badURLWorld [] { demoJob with TaskResultCallbackURL := "%zz" }).2 =
        .error "tf/demo_server directory not found in /app/run-1" ∧
      ∀ e ∈ (processJob badURLWorld [] { demoJob with TaskResultCallbackURL := "%zz" }).1,
        e.isCallback = false) := by
  refine ⟨⟨rfl, rfl, rfl, ?_⟩, ⟨rfl, rfl, ?_⟩⟩ <;> decide

/-- C7, amended: for a job whose download succeeded and on which
`generateTerraformGraph` returns an error, if the pattern file can be read and
`http.NewRequest` accepts the callback URL, then the scan runs and the body of the
loop runs to its end: the events of the job are those up to the end of the scan,
none of them a callback, then the one callback, which carries the verdict on the
counts of the scan, then the pause. -/
theorem processJob_graph_failure (w : World) (tr : List Event) (payload : PrePlanPayload)
    (graphErr : String) (patterns : List String)
    (hfetch : (fetchOf w tr payload).2 = .ok ())
    (hgraph : (graphOf w tr payload).2 = .error graphErr)
    (hlines : w.lines (graphOf w tr payload).1 patternsFile = .ok patterns)
    (hurl : w.newRequest payload.TaskResultCallbackURL = none) :
    (graphOf w tr payload).2 ≠ .ok () ∧
    (processJob w tr payload).2 = .done ∧
    (processJob w tr payload).1 =
      (scanOf w tr payload patterns).1 ++ [callbackOf w tr payload patterns, .sleep] ∧
    (∃ evs, (scanOf w tr payload patterns).1 = tr ++ evs ∧
      Event.readLines patternsFile ∈ evs ∧ ∀ e ∈ evs, e.isCallback = false) ∧
    ∃ evs, (processJob w tr payload).1 = tr ++ evs ∧
      evs.filter Event.isCallback = [callbackOf w tr payload patterns] := by
  have hjob := processJob_of_lines_ok w tr payload patterns hfetch hlines
  have htrace : (processJob w tr payload).1 =
      (scanOf w tr payload patterns).1 ++ [callbackOf w tr payload patterns, .sleep] := by
    rw [hjob]
    simp only [sendPatchRequest_sent w _ _ _ _ hurl, callbackOf]
    simp
  obtain ⟨evs, h1, h2, h3⟩ := scanOf_events w tr payload patterns
  refine ⟨by rw [hgraph]; simp, by rw [hjob], htrace, ⟨evs, h1, h2, h3⟩, ?_⟩
  refine ⟨evs ++ [callbackOf w tr payload patterns, .sleep], ?_, ?_⟩
  · rw [htrace, h1]; simp
  · have hnone : evs.filter Event.isCallback = [] := by
      rw [List.filter_eq_nil_iff]
      intro e he
      simp [h3 e he]
    rw [List.filter_append, hnone]
    simp [List.filter_cons, callbackOf, Event.isCallback]

/-- Witness of C7, amended: the job `run-1` in a world without the directory
`tf/demo_server`, where nothing else fails. -/
theorem processJob_graph_failure_witness :
    (fetchOf noGraphWorld [] demoJob).2 = .ok () ∧
    (graphOf noGraphWorld [] demoJob).2 =
      .error "tf/demo_server directory not found in /app/run-1" ∧
    noGraphWorld.lines (graphOf noGraphWorld [] demoJob).1 patternsFile = .ok [] ∧
    noGraphWorld.newRequest demoJob.TaskResultCallbackURL = none ∧
    (processJob noGraphWorld [] demoJob).2 = .done ∧
    (processJob noGraphWorld [] demoJob).1 =
      (scanOf noGraphWorld [] demoJob []).1 ++ [callbackOf noGraphWorld [] demoJob [], .sleep] :=
  ⟨rfl, rfl, rfl, rfl,
    (processJob_graph_failure noGraphWorld [] demoJob _ [] rfl rfl rfl rfl).2.1,
    (processJob_graph_failure noGraphWorld [] demoJob _ [] rfl rfl rfl rfl).2.2.1⟩

end RunTask
